import Mathlib

/-!
Verification of the jedit document tree (`src/container/node.rs`) and view
tree (`src/app/component/workspace/worktree_node.rs`) against their
natural-language specification.

The Rust code is shallowly embedded: machine integers (`usize`) become `Nat`
with Rust's checked arithmetic modelled by truncated subtraction (underflow
never occurs on the well-formed trees the theorems quantify over),
`IndexMap<String, Node>` becomes an ordered association list (exactly the
observable order-preserving behavior the code relies on), `Vec<T>` becomes
`List T`, fallible functions return an explicit result type, and a Rust
`panic!` (e.g. `Vec::remove` out of bounds) is a distinguished outcome.
-/

set_option autoImplicit false

namespace Jedit

/-- Modelled from the spec: the fixed per-level indent width used by the
pretty printer and the size formulas.  The constant `INDENT` lives in the
container module file, which is not among the provided sources; the spec's
concrete scenario (`"[\n  1,\n  2,\n  3\n]"`) and the repository's
`RAW_JSON` test fixture fix it at 2. -/
def INDENT : Nat := 2

/-- UTF-8 byte size of one character (Rust `char::len_utf8`). -/
def charBytes (c : Char) : Nat :=
  if c.val < 0x80 then 1
  else if c.val < 0x800 then 2
  else if c.val < 0x10000 then 3
  else 4

/-- UTF-8 byte length of a string (Rust `str::len`). -/
def strBytes (s : String) : Nat := (s.data.map charBytes).sum

/-- `NodeKind` from `node.rs`. -/
inductive NodeKind where
  | terminal
  | object
  | array
deriving DecidableEq, Repr

/-- `NodeMeta` from `node.rs`. -/
structure NodeMeta where
  n_lines : Nat
  n_bytes : Nat
  kind : NodeKind
deriving DecidableEq, Repr

/-- Numbers.  `.int` models the stored `Number::Int(i64)` of `node.rs` —
and, on the `serde_json::Number` side, any `NegInt`, or `PosInt` on which
`as_i64()` succeeds — as an unbounded `Int` (`i64` overflow inside the
program is out of scope, `i64`-range literals convert losslessly).
`.float` models an `f64` abstractly by its canonical decimal
serialization (the shortest round-trip form the external serializers
print), since no claim depends on float arithmetic.  `.posInt` models a
`serde_json::Number::PosInt` (`u64`) in general: it carries the value
together with the canonical serialization of its `as_f64()` coercion
(`value as f64` — again an external float, represented like every other
float by its printed form), which is what gets stored when the value
exceeds `i64::MAX` and `as_i64()` fails. -/
inductive JNumber where
  | int (value : Int)
  | posInt (value : Nat) (coerced : String)
  | float (canonical : String)
deriving DecidableEq, Repr

/-- `i64::MAX`. -/
def i64MaxNat : Nat := 9223372036854775807

/-- The serialization of the *original* `serde_json::Number`
(`serde_json::to_vec(&value)` in `Node::number`): a `PosInt` serializes
as its decimal digits even when it is about to be stored coerced. -/
def JNumber.srcText : JNumber → String
  | .int v => toString v
  | .posInt u _ => toString u
  | .float c => c

/-- The stored `Number` of `node.rs`: the image of
`value.as_i64().map(Number::Int).or_else(|| value.as_f64().map(Number::Float))`.
A `PosInt` above `i64::MAX` falls through `as_i64()` to the lossy `f64`
cast (`as_f64` also succeeds on every `Int`-bound value, losslessly, so
the fallback is only observable there). -/
def JNumber.store : JNumber → JNumber
  | .int v => .int v
  | .posInt u c => if u ≤ i64MaxNat then .int u else .float c
  | .float c => .float c

/-- Canonical decimal form of a stored number, as printed by the
serializer. -/
def JNumber.text : JNumber → String
  | .int v => toString v
  | .posInt u c => if u ≤ i64MaxNat then toString (u : Int) else c
  | .float c => c

mutual
/-- `Node` from `node.rs`: cached pretty-printed line and byte counts plus
the value payload. -/
inductive Node where
  | mk (n_lines : Nat) (n_bytes : Nat) (data : Kind)

/-- `Kind` from `node.rs`; `IndexMap<String, Node>` is embedded as an
ordered association list. -/
inductive Kind where
  | null
  | bool (b : Bool)
  | number (n : JNumber)
  | str (s : String)
  | arr (xs : List Node)
  | obj (xs : List (String × Node))
end

def Node.n_lines : Node → Nat
  | .mk l _ _ => l

def Node.n_bytes : Node → Nat
  | .mk _ b _ => b

def Node.data : Node → Kind
  | .mk _ _ k => k

/-- `Node::indented_n_bytes`. -/
def Node.indented_n_bytes (n : Node) : Nat := n.n_bytes + INDENT * n.n_lines

/-! ## The external pretty printer

The serializer (`sonic_rs::to_string_pretty`) is an external collaborator,
specified by the spec at its interface boundary: a pretty printer with the
fixed per-level indent width `INDENT`, printing terminals on one line
(`null`, `true`/`false`, the canonical decimal form of a number, a string
between two quotes), `[]`/`\x7b\x7d` for empty containers, and otherwise one
child (or `"key": child`) per line, comma-separated, indented one level.
We model its output as the list of lines of the produced text. -/

/-- Modelled from the spec: two spaces (`INDENT` bytes) prepended to a line
one nesting level down. -/
def indentLine (s : String) : String := "  " ++ s

/-- Modelled from the spec: the `"key": ` label in front of an object
entry's first line. -/
def keyLabel (k : String) : String := "\"" ++ k ++ "\": "

/-- Append the separating comma to the last line of a child's printout. -/
def addComma : List String → List String
  | [] => []
  | [l] => [l ++ ","]
  | l :: ls => l :: addComma ls

/-- Lines of the comma-separated, indented children of a container. -/
def ppChildren : List (List String) → List String
  | [] => []
  | [c] => c.map indentLine
  | c :: cs => addComma (c.map indentLine) ++ ppChildren cs

/-- Prefix an object entry's printout with its quoted key. -/
def entryLines (k : String) : List String → List String
  | [] => []
  | h :: t => (keyLabel k ++ h) :: t

mutual
/-- Modelled from the spec: lines of the canonical pretty-printed text of a
node in isolation at indent depth 0. -/
def ppNode : Node → List String
  | .mk _ _ k => ppKind k

def ppKind : Kind → List String
  | .null => ["null"]
  | .bool b => [if b then "true" else "false"]
  | .number n => [n.text]
  | .str s => ["\"" ++ s ++ "\""]
  | .arr [] => ["[]"]
  | .arr (x :: xs) => "[" :: ppChildren (ppNode x :: ppNodes xs) ++ ["]"]
  | .obj [] => ["\x7b\x7d"]
  | .obj ((k, v) :: xs) =>
      "\x7b" :: ppChildren (entryLines k (ppNode v) :: ppEntries xs) ++ ["\x7d"]

def ppNodes : List Node → List (List String)
  | [] => []
  | x :: xs => ppNode x :: ppNodes xs

def ppEntries : List (String × Node) → List (List String)
  | [] => []
  | (k, v) :: xs => entryLines k (ppNode v) :: ppEntries xs
end

/-- Join lines with newline separators (no trailing newline), as
`to_string_pretty` renders its output. -/
def joinLines : List String → String
  | [] => ""
  | [l] => l
  | l :: ls => l ++ "\n" ++ joinLines ls

/-- Byte length of the text obtained by joining the given lines. -/
def linesBytes (ls : List String) : Nat := (ls.map strBytes).sum + (ls.length - 1)

/-- `Node::to_string_pretty`, composed with the modelled external printer. -/
def Node.to_string_pretty (n : Node) : String := joinLines (ppNode n)

/-! ## Loading (`Node::from_serde_json` and the constructors) -/

/-- The parsed JSON value handed to `Node::from_serde_json`
(`serde_json::Value`, with objects in source order). -/
inductive JValue where
  | null
  | bool (b : Bool)
  | number (n : JNumber)
  | str (s : String)
  | arr (xs : List JValue)
  | obj (xs : List (String × JValue))

/-- `Node::null`. -/
def Node.null : Node := .mk 1 4 .null

/-- `Node::bool`. -/
def Node.bool (value : Bool) : Node := .mk 1 (if value then 4 else 5) (.bool value)

/-- `Node::number`: `n_bytes` is the byte length of the serialization of
the *original* `serde_json::Number`, while the stored data is the
`as_i64`-or-`as_f64` conversion — for a `PosInt` above `i64::MAX` the two
disagree (lossy coercion with a stale cached size).  The `ok_or` error
path (`as_f64` failing too) is unreachable without serde's
`arbitrary_precision` feature, so the model is total. -/
def Node.number (value : JNumber) : Node :=
  .mk 1 (strBytes value.srcText) (.number value.store)

/-- `Node::string`. -/
def Node.string (value : String) : Node := .mk 1 (strBytes value + 2) (.str value)

/-- `Node::array`, taking the already-converted child nodes (the source
converts each element with `from_serde_json` and then computes the sizes
from the resulting nodes). -/
def Node.array (nodes : List Node) : Node :=
  match nodes with
  | [] => .mk 1 2 (.arr [])
  | _ =>
    .mk ((nodes.map Node.n_lines).sum + 2)
      ((nodes.map Node.indented_n_bytes).sum + nodes.length + (nodes.length - 1) + 3)
      (.arr nodes)

/-- `Node::object`, taking the already-converted entries. -/
def Node.object (nodes : List (String × Node)) : Node :=
  match nodes with
  | [] => .mk 1 2 (.obj [])
  | _ =>
    .mk ((nodes.map fun kv => kv.2.n_lines).sum + 2)
      ((nodes.map fun kv => 4 + strBytes kv.1 + kv.2.indented_n_bytes).sum
        + nodes.length + (nodes.length - 1) + 3)
      (.obj nodes)

mutual
/-- `Node::from_serde_json`. -/
def fromSerdeJson : JValue → Node
  | .null => Node.null
  | .bool b => Node.bool b
  | .number n => Node.number n
  | .str s => Node.string s
  | .arr vs => Node.array (fromSerdeJsonList vs)
  | .obj kvs => Node.object (fromSerdeJsonEntries kvs)

def fromSerdeJsonList : List JValue → List Node
  | [] => []
  | v :: vs => fromSerdeJson v :: fromSerdeJsonList vs

def fromSerdeJsonEntries : List (String × JValue) → List (String × Node)
  | [] => []
  | (k, v) :: kvs => (k, fromSerdeJson v) :: fromSerdeJsonEntries kvs
end

mutual
/-- No number in the value is a `PosInt` above `i64::MAX`: every number
of the document survives `Node::number`'s `as_i64`-or-`as_f64` conversion
losslessly (its stored form prints with as many bytes as the original
serialization that `n_bytes` caches). -/
def JValue.losslessB : JValue → Bool
  | .null => true
  | .bool _ => true
  | .number n =>
    match n with
    | .posInt u _ => decide (u ≤ i64MaxNat)
    | _ => true
  | .str _ => true
  | .arr xs => losslessList xs
  | .obj xs => losslessEntries xs

def losslessList : List JValue → Bool
  | [] => true
  | x :: xs => JValue.losslessB x && losslessList xs

def losslessEntries : List (String × JValue) → Bool
  | [] => true
  | (_, v) :: xs => JValue.losslessB v && losslessEntries xs
end

/-! ## Mutation (`Node::mutate` and the four public operations) -/

/-- Rust `str::parse::<usize>`: an optional leading `+` followed by at
least one decimal digit (the `u64` overflow bound is not modelled). -/
def parseUsize (s : String) : Option Nat :=
  let ds := match s.data with
    | '+' :: rest => rest
    | l => l
  if ds = [] then none
  else if ds.all Char.isDigit then
    some (ds.foldl (fun n c => n * 10 + (c.toNat - '0'.toNat)) 0)
  else none

/-- Remove the element at an index, shifting the rest left
(`Vec::remove` / `IndexMap::shift_remove`, bounds already checked). -/
def removeAt {α : Type} : List α → Nat → List α
  | [], _ => []
  | _ :: xs, 0 => xs
  | x :: xs, i + 1 => x :: removeAt xs i

/-- Insert an element at an index, shifting the rest right
(`Vec::insert` / `IndexMap::insert_before`, bounds already checked). -/
def insertAt {α : Type} : List α → Nat → α → List α
  | xs, 0, a => a :: xs
  | [], _ + 1, a => [a]
  | x :: xs, i + 1, a => x :: insertAt xs i a

/-- `IndexMap::swap_remove`: move the last element into the removed slot. -/
def swapRemoveAt {α : Type} (xs : List α) (i : Nat) : List α :=
  match xs.getLast? with
  | none => xs
  | some last => (xs.set i last).dropLast

/-- `IndexMap::swap_indices` (both indices in bounds at the call site). -/
def swapIndices {α : Type} (xs : List α) (i j : Nat) : List α :=
  match xs[i]?, xs[j]? with
  | some a, some b => (xs.set i b).set j a
  | _, _ => xs

/-- `IndexMap::get_index_of` on the association-list embedding. -/
def keyIdx : List (String × Node) → String → Option Nat
  | [], _ => none
  | (k', _) :: rest, k => if k' = k then some 0 else (keyIdx rest k).map (· + 1)

/-- `IndexMap::contains_key`. -/
def containsKey (xs : List (String × Node)) (k : String) : Bool :=
  (keyIdx xs k).isSome

/-- `MutationError` from `error.rs`, with the wrapped `IndexingError`
variants flattened in. -/
inductive MutationError where
  | duplicateKey
  | notRenameable
  | missingKey (key : String)
  | notIndexable
deriving DecidableEq, Repr

/-- `AddNodeKey` from `node.rs`. -/
inductive AddNodeKey where
  | array
  | object (key : String)

/-- `NodeMutation` from `node.rs`. -/
inductive NodeMutation where
  | replace (node : Node)
  | delete (key : String)
  | append (after : String) (key : AddNodeKey) (node : Node)
  | rename (before : String) (after : String)

/-- Outcome of a `&mut self` mutation: success and early-error both carry
the resulting tree state (the error paths of the source return before
modifying anything, which the frame theorems below make explicit);
`panic` is a Rust panic (`Vec::remove` / `Vec::insert` out of bounds,
which aborts instead of returning). -/
inductive MutateResult where
  | ok (old : Option Node) (tree : Node)
  | err (e : MutationError) (tree : Node)
  | panic

/-- `Node::mutate`.  The `Selector` iterator is embedded as the list of
its remaining segments. -/
def Node.mutate : Node → List String → NodeMutation → MutateResult
  | .mk l b data, next :: rest, m =>
    match data with
    | .arr nodes =>
      match parseUsize next with
      | none => .err (.missingKey next) (.mk l b (.arr nodes))
      | some i =>
        match nodes[i]? with
        | none => .err (.missingKey next) (.mk l b (.arr nodes))
        | some child =>
          let old_n_lines := child.n_lines
          let old_n_bytes := child.indented_n_bytes
          match child.mutate rest m with
          | .panic => .panic
          | .err e child' => .err e (.mk l b (.arr (nodes.set i child')))
          | .ok old child' =>
            .ok old (.mk (l - old_n_lines + child'.n_lines)
              (b - old_n_bytes + child'.indented_n_bytes) (.arr (nodes.set i child')))
    | .obj entries =>
      match keyIdx entries next with
      | none => .err (.missingKey next) (.mk l b (.obj entries))
      | some i =>
        match entries[i]? with
        | none => .err (.missingKey next) (.mk l b (.obj entries))
        | some entry =>
          let child := entry.2
          let old_n_lines := child.n_lines
          let old_n_bytes := child.indented_n_bytes
          match child.mutate rest m with
          | .panic => .panic
          | .err e child' => .err e (.mk l b (.obj (entries.set i (entry.1, child'))))
          | .ok old child' =>
            .ok old (.mk (l - old_n_lines + child'.n_lines)
              (b - old_n_bytes + child'.indented_n_bytes)
              (.obj (entries.set i (entry.1, child'))))
    | k => .err .notIndexable (.mk l b k)
  | .mk l b data, [], m =>
    match m with
    | .replace new_node => .ok (some (.mk l b data)) new_node
    | .append after .array node =>
      match data with
      | .arr child =>
        match parseUsize after with
        | none => .err (.missingKey after) (.mk l b (.arr child))
        | some index =>
          let sizes : Nat × Nat :=
            if child.isEmpty then (2 + node.n_lines, 3 + node.indented_n_bytes)
            else (l + node.n_lines, b + node.indented_n_bytes + 2)
          if index + 1 ≤ child.length then
            .ok none (.mk sizes.1 sizes.2 (.arr (insertAt child (index + 1) node)))
          else .panic
      | k => .err .notIndexable (.mk l b k)
    | .append after (.object new_key) node =>
      match data with
      | .obj entries =>
        if containsKey entries new_key then .err .duplicateKey (.mk l b (.obj entries))
        else
          match keyIdx entries after with
          | none => .err (.missingKey after) (.mk l b (.obj entries))
          | some index =>
            let sizes : Nat × Nat :=
              if entries.isEmpty then
                (2 + node.n_lines, 7 + strBytes new_key + node.indented_n_bytes)
              else (l + node.n_lines, b + node.indented_n_bytes + strBytes new_key + 6)
            .ok none (.mk sizes.1 sizes.2 (.obj (insertAt entries (index + 1) (new_key, node))))
      | k => .err .notIndexable (.mk l b k)
    | .delete key =>
      match data with
      | .arr child =>
        match parseUsize key with
        | none => .err (.missingKey key) (.mk l b (.arr child))
        | some index =>
          match child[index]? with
          | none => .panic
          | some deleted =>
            let child' := removeAt child index
            let sizes : Nat × Nat :=
              if child'.isEmpty then (1, 2)
              else (l - deleted.n_lines, b - (deleted.indented_n_bytes + 2))
            .ok (some deleted) (.mk sizes.1 sizes.2 (.arr child'))
      | .obj entries =>
        match keyIdx entries key with
        | none => .err (.missingKey key) (.mk l b (.obj entries))
        | some index =>
          match entries[index]? with
          | none => .err (.missingKey key) (.mk l b (.obj entries))
          | some deleted =>
            let entries' := removeAt entries index
            let sizes : Nat × Nat :=
              if entries'.isEmpty then (1, 2)
              else (l - deleted.2.n_lines, b - (deleted.2.indented_n_bytes + strBytes key + 6))
            .ok (some deleted.2) (.mk sizes.1 sizes.2 (.obj entries'))
      | k => .err .notIndexable (.mk l b k)
    | .rename before after =>
      match data with
      | .arr child => .err .notRenameable (.mk l b (.arr child))
      | .obj entries =>
        if containsKey entries after then .err .duplicateKey (.mk l b (.obj entries))
        else
          match keyIdx entries before with
          | none => .err (.missingKey before) (.mk l b (.obj entries))
          | some index =>
            match entries[index]? with
            | none => .err (.missingKey before) (.mk l b (.obj entries))
            | some entry =>
              let removed := swapRemoveAt entries index
              let b' := b + strBytes after - strBytes before
              let inserted := removed ++ [(after, entry.2)]
              let last_index := removed.length
              .ok none (.mk l b' (.obj (swapIndices inserted index last_index)))
      | k => .err .notIndexable (.mk l b k)

/-- `Node::replace`. -/
def Node.replace (n : Node) (selector : List String) (node : Node) : MutateResult :=
  n.mutate selector (.replace node)

/-- `Node::delete` (an empty selector is rejected with `NotIndexable`
before anything is touched). -/
def Node.delete (n : Node) (selector : List String) : MutateResult :=
  match selector.getLast? with
  | none => .err .notIndexable n
  | some last => n.mutate selector.dropLast (.delete last)

/-- `Node::append_after`. -/
def Node.append_after (n : Node) (selector : List String) (key : AddNodeKey)
    (node : Node) : MutateResult :=
  match selector.getLast? with
  | none => .err .notIndexable n
  | some last => n.mutate selector.dropLast (.append last key node)

/-- `Node::rename`. -/
def Node.rename (n : Node) (selector : List String) (new_name : String) : MutateResult :=
  match selector.getLast? with
  | none => .err .notIndexable n
  | some last => n.mutate selector.dropLast (.rename last new_name)

/-! ## The size invariant

`Node.wfB` is the spec's size invariant, checked at every node of a tree:
the cached `n_lines` equals the number of lines of the node's
pretty-printed text in isolation, and `n_bytes` its byte length (the
repository's own `assert_all_meta` test oracle). -/

mutual
def Node.wfB : Node → Bool
  | .mk l b k =>
    (l == (ppKind k).length) && (b == linesBytes (ppKind k)) && Kind.wfB k

def Kind.wfB : Kind → Bool
  | .null => true
  | .bool _ => true
  | .number _ => true
  | .str _ => true
  | .arr xs => wfListB xs
  | .obj xs => wfEntriesB xs

def wfListB : List Node → Bool
  | [] => true
  | x :: xs => Node.wfB x && wfListB xs

def wfEntriesB : List (String × Node) → Bool
  | [] => true
  | (_, v) :: xs => Node.wfB v && wfEntriesB xs
end

/-- Every node of the tree satisfies the size invariant. -/
def Wf (n : Node) : Prop := Node.wfB n = true

/-! ## List helper lemmas -/

section ListHelpers

variable {α : Type}

theorem length_removeAt :
    ∀ (xs : List α) (i : Nat), i < xs.length → (removeAt xs i).length + 1 = xs.length := by
  intro xs
  induction xs with
  | nil => intro i h; simp at h
  | cons x xs ih =>
    intro i h
    match i with
    | 0 => simp [removeAt]
    | i + 1 =>
      simp only [removeAt, List.length_cons]
      rw [← ih i (by simpa using h)]

theorem sum_map_removeAt (f : α → Nat) :
    ∀ (xs : List α) (i : Nat) (x : α), xs[i]? = some x →
      ((removeAt xs i).map f).sum + f x = (xs.map f).sum := by
  intro xs
  induction xs with
  | nil => intro i x h; simp at h
  | cons y ys ih =>
    intro i x h
    match i with
    | 0 =>
      simp only [List.getElem?_cons_zero, Option.some.injEq] at h
      subst h
      simp [removeAt]
      omega
    | i + 1 =>
      simp only [List.getElem?_cons_succ] at h
      simp only [removeAt, List.map_cons, List.sum_cons]
      rw [← ih i x h]
      omega

theorem mem_removeAt :
    ∀ (xs : List α) (i : Nat) (a : α), a ∈ removeAt xs i → a ∈ xs := by
  intro xs
  induction xs with
  | nil => intro i a h; simp [removeAt] at h
  | cons y ys ih =>
    intro i a h
    match i with
    | 0 => exact List.mem_cons_of_mem _ (by simpa [removeAt] using h)
    | i + 1 =>
      simp only [removeAt, List.mem_cons] at h ⊢
      exact h.imp id (ih i a)

theorem length_insertAt :
    ∀ (xs : List α) (i : Nat) (a : α), i ≤ xs.length →
      (insertAt xs i a).length = xs.length + 1 := by
  intro xs
  induction xs with
  | nil =>
    intro i a h
    match i with
    | 0 => simp [insertAt]
    | i + 1 => simp at h
  | cons y ys ih =>
    intro i a h
    match i with
    | 0 => simp [insertAt]
    | i + 1 =>
      simp only [insertAt, List.length_cons]
      rw [ih i a (by simpa using h)]

theorem sum_map_insertAt (f : α → Nat) :
    ∀ (xs : List α) (i : Nat) (a : α),
      ((insertAt xs i a).map f).sum = (xs.map f).sum + f a := by
  intro xs
  induction xs with
  | nil =>
    intro i a
    match i with
    | 0 => simp [insertAt]
    | i + 1 => simp [insertAt]
  | cons y ys ih =>
    intro i a
    match i with
    | 0 => simp [insertAt]; omega
    | i + 1 =>
      simp only [insertAt, List.map_cons, List.sum_cons, ih i a]
      omega

theorem mem_insertAt :
    ∀ (xs : List α) (i : Nat) (a b : α), b ∈ insertAt xs i a → b ∈ xs ∨ b = a := by
  intro xs
  induction xs with
  | nil =>
    intro i a b h
    match i with
    | 0 => simp [insertAt] at h; exact Or.inr h
    | i + 1 => simp [insertAt] at h; exact Or.inr h
  | cons y ys ih =>
    intro i a b h
    match i with
    | 0 =>
      simp only [insertAt, List.mem_cons] at h
      rcases h with h | h | h
      · exact Or.inr h
      · exact Or.inl (by simp [h])
      · exact Or.inl (List.mem_cons_of_mem _ h)
    | i + 1 =>
      simp only [insertAt, List.mem_cons] at h
      rcases h with h | h
      · exact Or.inl (by simp [h])
      · rcases ih i a b h with h' | h'
        · exact Or.inl (List.mem_cons_of_mem _ h')
        · exact Or.inr h'

theorem sum_map_set (f : α → Nat) :
    ∀ (xs : List α) (i : Nat) (a x : α), xs[i]? = some x →
      ((xs.set i a).map f).sum + f x = (xs.map f).sum + f a := by
  intro xs
  induction xs with
  | nil => intro i a x h; simp at h
  | cons y ys ih =>
    intro i a x h
    match i with
    | 0 =>
      simp only [List.getElem?_cons_zero, Option.some.injEq] at h
      subst h
      simp [List.set]
      omega
    | i + 1 =>
      simp only [List.getElem?_cons_succ] at h
      simp only [List.set, List.map_cons, List.sum_cons]
      have := ih i a x h
      omega

theorem elem_le_sum (f : α → Nat) :
    ∀ (xs : List α) (i : Nat) (x : α), xs[i]? = some x → f x ≤ (xs.map f).sum := by
  intro xs
  induction xs with
  | nil => intro i x h; simp at h
  | cons y ys ih =>
    intro i x h
    match i with
    | 0 =>
      simp only [List.getElem?_cons_zero, Option.some.injEq] at h
      subst h
      simp only [List.map_cons, List.sum_cons]
      omega
    | i + 1 =>
      simp only [List.getElem?_cons_succ] at h
      have := ih i x h
      simp only [List.map_cons, List.sum_cons]
      omega

theorem set_getElem_self :
    ∀ (xs : List α) (i : Nat) (x : α), xs[i]? = some x → xs.set i x = xs := by
  intro xs
  induction xs with
  | nil => intro i x h; simp at h
  | cons y ys ih =>
    intro i x h
    match i with
    | 0 =>
      simp only [List.getElem?_cons_zero, Option.some.injEq] at h
      subst h; rfl
    | i + 1 =>
      simp only [List.getElem?_cons_succ] at h
      simp [List.set, ih i x h]

theorem mem_set :
    ∀ (xs : List α) (i : Nat) (a b : α), b ∈ xs.set i a → b ∈ xs ∨ b = a := by
  intro xs i a b h
  rcases List.mem_or_eq_of_mem_set h with h' | h'
  · exact Or.inl h'
  · exact Or.inr h'

theorem getElem?_some_of_lt :
    ∀ (xs : List α) (i : Nat), i < xs.length → ∃ x, xs[i]? = some x := by
  intro xs i h
  exact ⟨xs[i], by simp [h]⟩

theorem dropLast_concat_of_getLast? :
    ∀ (l : List α) (x : α), l.getLast? = some x → l.dropLast ++ [x] = l := by
  intro l
  induction l with
  | nil => intro x h; simp at h
  | cons a as ih =>
    intro x h
    cases as with
    | nil => simp at h; simp [h]
    | cons b bs =>
      rw [List.getLast?_cons_cons] at h
      have := ih x h
      simp only [List.dropLast_cons₂, List.cons_append]
      rw [this]

theorem getLast?_cons_of_ne_nil (a : α) (L : List α) (h : L ≠ []) :
    (a :: L).getLast? = L.getLast? := by
  cases L with
  | nil => exact absurd rfl h
  | cons b bs => exact List.getLast?_cons_cons

theorem getLast?_isSome_of_ne_nil (L : List α) (h : L ≠ []) :
    ∃ x, L.getLast? = some x := by
  have : L.getLast?.isSome := List.getLast?_isSome.mpr h
  exact Option.isSome_iff_exists.mp this

theorem getElem?_concat_len (ys : List α) (v : α) : (ys ++ [v])[ys.length]? = some v :=
  List.getElem?_concat_length ys v

theorem set_concat_len :
    ∀ (ys : List α) (v w : α), (ys ++ [v]).set ys.length w = ys ++ [w] := by
  intro ys
  induction ys with
  | nil => intro v w; rfl
  | cons y ys ih =>
    intro v w
    simp only [List.cons_append, List.length_cons, List.set_cons_succ]
    rw [ih v w]

theorem swapIndices_cons_succ (x : α) (xs : List α) (i j : Nat) :
    swapIndices (x :: xs) (i + 1) (j + 1) = x :: swapIndices xs i j := by
  unfold swapIndices
  simp only [List.getElem?_cons_succ]
  cases xs[i]? <;> cases xs[j]? <;> rfl

theorem dropLast_cons_of_ne_nil (a : α) (L : List α) (h : L ≠ []) :
    (a :: L).dropLast = a :: L.dropLast := by
  cases L with
  | nil => exact absurd rfl h
  | cons b bs => exact List.dropLast_cons₂ ..

theorem swapRemoveAt_cons_succ (a : α) (as : List α) (i : Nat) (h : as ≠ []) :
    swapRemoveAt (a :: as) (i + 1) = a :: swapRemoveAt as i := by
  obtain ⟨x, hx⟩ := getLast?_isSome_of_ne_nil as h
  unfold swapRemoveAt
  rw [getLast?_cons_of_ne_nil a as h, hx]
  simp only [List.set]
  exact dropLast_cons_of_ne_nil a (as.set i x) (by
    intro hc
    have := congrArg List.length hc
    simp at this
    exact h this)

theorem swap_dance_zero (x : α) (ys : List α) (a : α) :
    swapIndices ((x :: ys) ++ [a]) 0 (x :: ys).length = a :: (ys ++ [x]) := by
  unfold swapIndices
  simp only [List.cons_append, List.getElem?_cons_zero, List.length_cons,
    List.getElem?_cons_succ]
  rw [getElem?_concat_len ys a]
  simp only [List.set_cons_zero, List.set_cons_succ]
  rw [set_concat_len]

/-- The index-map rename dance (`swap_remove_full`, then `insert_full`,
then `swap_indices`) is exactly an in-place replacement of the entry at
the removed index. -/
theorem swap_dance :
    ∀ (es : List α) (i : Nat) (a : α), i < es.length →
      swapIndices (swapRemoveAt es i ++ [a]) i (swapRemoveAt es i).length = es.set i a := by
  intro es
  induction es with
  | nil => intro i a h; simp at h
  | cons e L ih =>
    intro i a h
    match i with
    | 0 =>
      cases L with
      | nil => rfl
      | cons b bs =>
        obtain ⟨x, hx⟩ := getLast?_isSome_of_ne_nil (b :: bs) (by simp)
        have hys := dropLast_concat_of_getLast? (b :: bs) x hx
        have hsr : swapRemoveAt (e :: b :: bs) 0 = x :: (b :: bs).dropLast := by
          unfold swapRemoveAt
          rw [getLast?_cons_of_ne_nil e (b :: bs) (by simp), hx]
          simp only [List.set_cons_zero]
          exact dropLast_cons_of_ne_nil x (b :: bs) (by simp)
        rw [hsr, swap_dance_zero, hys]
        rfl
    | i + 1 =>
      have hL : L ≠ [] := by
        intro hc
        subst hc
        simp at h
      rw [swapRemoveAt_cons_succ e L i hL]
      simp only [List.cons_append, List.length_cons]
      rw [swapIndices_cons_succ]
      rw [ih i a (by simpa using h)]
      rfl

end ListHelpers

/-! ## Key lookup lemmas -/

theorem keyIdx_some :
    ∀ (es : List (String × Node)) (k : String) (i : Nat),
      keyIdx es k = some i → ∃ v, es[i]? = some (k, v) := by
  intro es
  induction es with
  | nil => intro k i h; simp [keyIdx] at h
  | cons e rest ih =>
    intro k i h
    obtain ⟨k', v'⟩ := e
    by_cases hk : k' = k
    · subst hk
      simp [keyIdx] at h
      subst h
      exact ⟨v', by simp⟩
    · simp [keyIdx, hk] at h
      obtain ⟨j, hj, rfl⟩ := h
      obtain ⟨v, hv⟩ := ih k j hj
      exact ⟨v, by simpa using hv⟩

/-! ## Pretty printer arithmetic -/

theorem strBytes_append (s t : String) : strBytes (s ++ t) = strBytes s + strBytes t := by
  simp [strBytes, String.data_append]

theorem strBytes_indentLine (s : String) : strBytes (indentLine s) = 2 + strBytes s := by
  rw [indentLine, strBytes_append]
  have : strBytes "  " = 2 := by decide
  omega

theorem strBytes_keyLabel (k : String) : strBytes (keyLabel k) = 4 + strBytes k := by
  rw [keyLabel, strBytes_append, strBytes_append]
  have h1 : strBytes "\"" = 1 := by decide
  have h2 : strBytes "\": " = 3 := by decide
  omega

theorem addComma_stats :
    ∀ (ls : List String), ls ≠ [] →
      (addComma ls).length = ls.length ∧
      ((addComma ls).map strBytes).sum = (ls.map strBytes).sum + 1 := by
  intro ls
  induction ls with
  | nil => intro h; exact absurd rfl h
  | cons l ls ih =>
    intro _
    cases ls with
    | nil =>
      refine ⟨rfl, ?_⟩
      have : strBytes (l ++ ",") = strBytes l + 1 := by
        rw [strBytes_append]
        have : strBytes "," = 1 := by decide
        omega
      simp [addComma, this]
    | cons l' ls' =>
      obtain ⟨h1, h2⟩ := ih (by simp)
      constructor
      · simpa [addComma] using h1
      · simp only [addComma, List.map_cons, List.sum_cons] at h2 ⊢
        omega

theorem indent_sb (ls : List String) :
    ((ls.map indentLine).map strBytes).sum = (ls.map strBytes).sum + 2 * ls.length := by
  induction ls with
  | nil => simp
  | cons l ls ih =>
    simp only [List.map_cons, List.sum_cons, ih, strBytes_indentLine, List.length_cons]
    omega

theorem ppChildren_stats :
    ∀ (cs : List (List String)), cs ≠ [] → (∀ c ∈ cs, c ≠ []) →
      (ppChildren cs).length = (cs.map List.length).sum ∧
      ((ppChildren cs).map strBytes).sum
        = (cs.map (fun c => (c.map strBytes).sum)).sum
          + 2 * (cs.map List.length).sum + (cs.length - 1) := by
  intro cs
  induction cs with
  | nil => intro h; exact absurd rfl h
  | cons c cs ih =>
    intro _ hmem
    have hc : c ≠ [] := hmem c (by simp)
    cases cs with
    | nil =>
      simp only [ppChildren, List.map_cons, List.map_nil, List.sum_cons, List.sum_nil,
        List.length_map, List.length_cons, List.length_nil]
      exact ⟨rfl, by rw [indent_sb]; omega⟩
    | cons c' cs' =>
      have hrest := ih (by simp) (fun x hx => hmem x (List.mem_cons_of_mem _ hx))
      have hci : c.map indentLine ≠ [] := by
        intro hcontra
        exact hc (List.map_eq_nil_iff.mp hcontra)
      obtain ⟨ha1, ha2⟩ := addComma_stats (c.map indentLine) hci
      simp only [ppChildren, List.length_append, List.map_append, List.sum_append,
        List.map_cons, List.sum_cons, List.length_cons] at hrest ⊢
      obtain ⟨hr1, hr2⟩ := hrest
      constructor
      · rw [ha1, hr1, List.length_map]
      · rw [ha2, hr2, indent_sb]
        omega

theorem ppNode_ne_nil : ∀ (n : Node), ppNode n ≠ [] := by
  intro n
  obtain ⟨l, b, k⟩ := n
  show ppKind k ≠ []
  cases k with
  | null => simp [ppKind]
  | bool b => simp [ppKind]
  | number n => simp [ppKind]
  | str s => simp [ppKind]
  | arr xs => cases xs <;> simp [ppKind]
  | obj xs =>
    match xs with
    | [] => simp [ppKind]
    | (k', v) :: rest => simp [ppKind]

theorem entryLines_stats (k : String) (ls : List String) (h : ls ≠ []) :
    (entryLines k ls).length = ls.length ∧
    ((entryLines k ls).map strBytes).sum = (ls.map strBytes).sum + (4 + strBytes k) := by
  cases ls with
  | nil => exact absurd rfl h
  | cons hd tl =>
    refine ⟨rfl, ?_⟩
    simp only [entryLines, List.map_cons, List.sum_cons, strBytes_append, strBytes_keyLabel]
    omega

theorem ppNodes_eq_map : ∀ (xs : List Node), ppNodes xs = xs.map ppNode := by
  intro xs
  induction xs with
  | nil => rfl
  | cons x xs ih => simp [ppNodes, ih]

theorem ppEntries_eq_map :
    ∀ (xs : List (String × Node)),
      ppEntries xs = xs.map (fun kv => entryLines kv.1 (ppNode kv.2)) := by
  intro xs
  induction xs with
  | nil => rfl
  | cons kv xs ih =>
    obtain ⟨k, v⟩ := kv
    simp [ppEntries, ih]

theorem sum_indented (xs : List Node) :
    (xs.map Node.indented_n_bytes).sum
      = (xs.map Node.n_bytes).sum + 2 * (xs.map Node.n_lines).sum := by
  induction xs with
  | nil => simp
  | cons x xs ih =>
    simp only [List.map_cons, List.sum_cons, ih, Node.indented_n_bytes, INDENT]
    omega

theorem child_line_sum (x : Node)
    (h1 : x.n_lines = (ppNode x).length) (h2 : x.n_bytes = linesBytes (ppNode x)) :
    ((ppNode x).map strBytes).sum + x.n_lines = x.n_bytes + 1 := by
  have hne := ppNode_ne_nil x
  have hlen : 1 ≤ (ppNode x).length := List.length_pos.mpr hne
  rw [h1, h2, linesBytes]
  omega

/-! ## Characterizing the size invariant on containers -/

theorem wfListB_iff :
    ∀ (xs : List Node), wfListB xs = true ↔ ∀ x ∈ xs, Node.wfB x = true := by
  intro xs
  induction xs with
  | nil => simp [wfListB]
  | cons x xs ih => simp [wfListB, Bool.and_eq_true, ih]

theorem wfEntriesB_iff :
    ∀ (xs : List (String × Node)), wfEntriesB xs = true ↔ ∀ kv ∈ xs, Node.wfB kv.2 = true := by
  intro xs
  induction xs with
  | nil => simp [wfEntriesB]
  | cons kv xs ih =>
    obtain ⟨k, v⟩ := kv
    simp [wfEntriesB, Bool.and_eq_true, ih]

theorem wfB_mk_iff (l b : Nat) (k : Kind) :
    Node.wfB (.mk l b k) = true ↔
      l = (ppKind k).length ∧ b = linesBytes (ppKind k) ∧ Kind.wfB k = true := by
  simp [Node.wfB, Bool.and_eq_true, beq_iff_eq, and_assoc]

theorem node_stats_of_wfB (x : Node) (h : Node.wfB x = true) :
    x.n_lines = (ppNode x).length ∧ x.n_bytes = linesBytes (ppNode x) := by
  obtain ⟨l, b, k⟩ := x
  obtain ⟨h1, h2, _⟩ := (wfB_mk_iff l b k).mp h
  exact ⟨h1, h2⟩

theorem arr_sums (xs : List Node) (h : ∀ x ∈ xs, Node.wfB x = true) :
    ((xs.map ppNode).map List.length).sum = (xs.map Node.n_lines).sum ∧
    ((xs.map ppNode).map (fun c => (c.map strBytes).sum)).sum + (xs.map Node.n_lines).sum
      = (xs.map Node.n_bytes).sum + xs.length := by
  induction xs with
  | nil => simp
  | cons x xs ih =>
    obtain ⟨s1, s2⟩ := node_stats_of_wfB x (h x (by simp))
    have hc := child_line_sum x s1 s2
    obtain ⟨i1, i2⟩ := ih (fun y hy => h y (List.mem_cons_of_mem _ hy))
    simp only [List.map_cons, List.sum_cons, List.length_cons]
    exact ⟨by omega, by omega⟩

theorem obj_sums (xs : List (String × Node)) (h : ∀ kv ∈ xs, Node.wfB kv.2 = true) :
    ((xs.map fun kv => entryLines kv.1 (ppNode kv.2)).map List.length).sum
        = (xs.map fun kv => kv.2.n_lines).sum ∧
    ((xs.map fun kv => entryLines kv.1 (ppNode kv.2)).map
        (fun c => (c.map strBytes).sum)).sum + (xs.map fun kv => kv.2.n_lines).sum
      = (xs.map fun kv => 4 + strBytes kv.1 + kv.2.n_bytes).sum + xs.length := by
  induction xs with
  | nil => simp
  | cons kv xs ih =>
    obtain ⟨k, v⟩ := kv
    obtain ⟨s1, s2⟩ := node_stats_of_wfB v (h (k, v) (by simp))
    have hc := child_line_sum v s1 s2
    obtain ⟨e1, e2⟩ := entryLines_stats k (ppNode v) (ppNode_ne_nil v)
    obtain ⟨i1, i2⟩ := ih (fun y hy => h y (List.mem_cons_of_mem _ hy))
    simp only [List.map_cons, List.sum_cons, List.length_cons]
    refine ⟨by rw [e1]; omega, ?_⟩
    rw [e2]
    omega

theorem sum_entry_indented (xs : List (String × Node)) :
    (xs.map fun kv => 4 + strBytes kv.1 + kv.2.indented_n_bytes).sum
      = (xs.map fun kv => 4 + strBytes kv.1 + kv.2.n_bytes).sum
        + 2 * (xs.map fun kv => kv.2.n_lines).sum := by
  induction xs with
  | nil => simp
  | cons kv xs ih =>
    simp only [List.map_cons, List.sum_cons]
    rw [ih]
    simp only [Node.indented_n_bytes, INDENT]
    omega

theorem ppKind_arr_stats (xs : List Node) (hne : xs ≠ []) (hch : wfListB xs = true) :
    (ppKind (.arr xs)).length = (xs.map Node.n_lines).sum + 2 ∧
    linesBytes (ppKind (.arr xs))
      = (xs.map Node.indented_n_bytes).sum + xs.length + (xs.length - 1) + 3 := by
  have hall := (wfListB_iff xs).mp hch
  obtain ⟨x, rest, rfl⟩ : ∃ y ys, xs = y :: ys := by
    cases xs with
    | nil => exact absurd rfl hne
    | cons y ys => exact ⟨y, ys, rfl⟩
  have hpp : ppKind (Kind.arr (x :: rest))
      = "[" :: ppChildren (ppNode x :: rest.map ppNode) ++ ["]"] := by
    simp [ppKind, ppNodes_eq_map]
  obtain ⟨p1, p2⟩ := ppChildren_stats (ppNode x :: rest.map ppNode) (by simp)
    (by
      intro c hc
      rcases List.mem_cons.mp hc with h | h
      · exact h ▸ ppNode_ne_nil x
      · obtain ⟨y, _, rfl⟩ := List.mem_map.mp h
        exact ppNode_ne_nil y)
  obtain ⟨a1, a2⟩ := arr_sums (x :: rest) hall
  have hsi := sum_indented (x :: rest)
  have hbr1 : strBytes "[" = 1 := by decide
  have hbr2 : strBytes "]" = 1 := by decide
  rw [hpp, linesBytes]
  simp only [List.map_cons, List.sum_cons, List.length_cons, List.map_append,
    List.sum_append, List.length_append, List.map_singleton, List.sum_singleton,
    List.length_singleton, List.map_nil, List.sum_nil, List.length_nil,
    List.length_map] at p1 p2 a1 a2 hsi ⊢
  constructor
  · omega
  · omega

theorem ppKind_obj_stats (xs : List (String × Node)) (hne : xs ≠ [])
    (hch : wfEntriesB xs = true) :
    (ppKind (.obj xs)).length = (xs.map fun kv => kv.2.n_lines).sum + 2 ∧
    linesBytes (ppKind (.obj xs))
      = (xs.map fun kv => 4 + strBytes kv.1 + kv.2.indented_n_bytes).sum
        + xs.length + (xs.length - 1) + 3 := by
  have hall := (wfEntriesB_iff xs).mp hch
  obtain ⟨kv, rest, rfl⟩ : ∃ y ys, xs = y :: ys := by
    cases xs with
    | nil => exact absurd rfl hne
    | cons y ys => exact ⟨y, ys, rfl⟩
  obtain ⟨k, v⟩ := kv
  have hpp : ppKind (Kind.obj ((k, v) :: rest))
      = "\x7b" :: ppChildren (entryLines k (ppNode v)
            :: rest.map fun kv => entryLines kv.1 (ppNode kv.2))
        ++ ["\x7d"] := by
    simp [ppKind, ppEntries_eq_map]
  obtain ⟨p1, p2⟩ := ppChildren_stats
    (entryLines k (ppNode v) :: rest.map fun kv => entryLines kv.1 (ppNode kv.2)) (by simp)
    (by
      intro c hc
      have hent : ∀ (k' : String) (v' : Node), entryLines k' (ppNode v') ≠ [] := by
        intro k' v'
        have := ppNode_ne_nil v'
        cases hpn : ppNode v' with
        | nil => exact absurd hpn this
        | cons hd tl => simp [entryLines]
      rcases List.mem_cons.mp hc with h | h
      · exact h ▸ hent k v
      · obtain ⟨⟨k', v'⟩, _, rfl⟩ := List.mem_map.mp h
        exact hent k' v')
  obtain ⟨a1, a2⟩ := obj_sums ((k, v) :: rest) hall
  have hsums := sum_entry_indented ((k, v) :: rest)
  have hbr1 : strBytes "\x7b" = 1 := by decide
  have hbr2 : strBytes "\x7d" = 1 := by decide
  rw [hpp, linesBytes]
  simp only [List.map_cons, List.sum_cons, List.length_cons, List.map_append,
    List.sum_append, List.length_append, List.map_singleton, List.sum_singleton,
    List.length_singleton, List.map_nil, List.sum_nil, List.length_nil,
    List.length_map] at p1 p2 a1 a2 hsums ⊢
  constructor
  · omega
  · omega

theorem kindWfB_arr (xs : List Node) : Kind.wfB (.arr xs) = wfListB xs := by
  simp [Kind.wfB]

theorem kindWfB_obj (xs : List (String × Node)) : Kind.wfB (.obj xs) = wfEntriesB xs := by
  simp [Kind.wfB]

theorem wfB_mk_arr (l b : Nat) (xs : List Node) (hne : xs ≠ []) (hch : wfListB xs = true)
    (hl : l = (xs.map Node.n_lines).sum + 2)
    (hb : b = (xs.map Node.indented_n_bytes).sum + xs.length + (xs.length - 1) + 3) :
    Node.wfB (.mk l b (.arr xs)) = true := by
  obtain ⟨s1, s2⟩ := ppKind_arr_stats xs hne hch
  exact (wfB_mk_iff l b (.arr xs)).mpr
    ⟨by omega, by omega, (kindWfB_arr xs).symm ▸ hch⟩

theorem wfB_arr_dest (l b : Nat) (xs : List Node) (hne : xs ≠ [])
    (h : Node.wfB (.mk l b (.arr xs)) = true) :
    wfListB xs = true ∧ l = (xs.map Node.n_lines).sum + 2 ∧
      b = (xs.map Node.indented_n_bytes).sum + xs.length + (xs.length - 1) + 3 := by
  obtain ⟨h1, h2, h3⟩ := (wfB_mk_iff l b (.arr xs)).mp h
  rw [kindWfB_arr] at h3
  obtain ⟨s1, s2⟩ := ppKind_arr_stats xs hne h3
  exact ⟨h3, by omega, by omega⟩

theorem wfB_mk_obj (l b : Nat) (xs : List (String × Node)) (hne : xs ≠ [])
    (hch : wfEntriesB xs = true)
    (hl : l = (xs.map fun kv => kv.2.n_lines).sum + 2)
    (hb : b = (xs.map fun kv => 4 + strBytes kv.1 + kv.2.indented_n_bytes).sum
      + xs.length + (xs.length - 1) + 3) :
    Node.wfB (.mk l b (.obj xs)) = true := by
  obtain ⟨s1, s2⟩ := ppKind_obj_stats xs hne hch
  exact (wfB_mk_iff l b (.obj xs)).mpr
    ⟨by omega, by omega, (kindWfB_obj xs).symm ▸ hch⟩

theorem wfB_obj_dest (l b : Nat) (xs : List (String × Node)) (hne : xs ≠ [])
    (h : Node.wfB (.mk l b (.obj xs)) = true) :
    wfEntriesB xs = true ∧ l = (xs.map fun kv => kv.2.n_lines).sum + 2 ∧
      b = (xs.map fun kv => 4 + strBytes kv.1 + kv.2.indented_n_bytes).sum
        + xs.length + (xs.length - 1) + 3 := by
  obtain ⟨h1, h2, h3⟩ := (wfB_mk_iff l b (.obj xs)).mp h
  rw [kindWfB_obj] at h3
  obtain ⟨s1, s2⟩ := ppKind_obj_stats xs hne h3
  exact ⟨h3, by omega, by omega⟩

theorem wfB_arr_nil (l b : Nat) : Node.wfB (.mk l b (.arr [])) = true ↔ l = 1 ∧ b = 2 := by
  rw [wfB_mk_iff]
  have h2 : strBytes "[]" = 2 := by decide
  simp [ppKind, linesBytes, kindWfB_arr, wfListB, h2]

theorem wfB_obj_nil (l b : Nat) : Node.wfB (.mk l b (.obj [])) = true ↔ l = 1 ∧ b = 2 := by
  rw [wfB_mk_iff]
  have h2 : strBytes "\x7b\x7d" = 2 := by decide
  simp [ppKind, linesBytes, kindWfB_obj, wfEntriesB, h2]

theorem getElem?_mem {α : Type} :
    ∀ (xs : List α) (i : Nat) (x : α), xs[i]? = some x → x ∈ xs := by
  intro xs
  induction xs with
  | nil => intro i x h; simp at h
  | cons y ys ih =>
    intro i x h
    match i with
    | 0 =>
      simp only [List.getElem?_cons_zero, Option.some.injEq] at h
      simp [h]
    | i + 1 =>
      simp only [List.getElem?_cons_succ] at h
      exact List.mem_cons_of_mem _ (ih i x h)

/-! ## Loading produces well-formed trees -/

theorem strongOnSize {α : Type} [SizeOf α] (P : α → Prop)
    (h : ∀ x, (∀ y : α, sizeOf y < sizeOf x → P y) → P x) : ∀ x, P x := by
  suffices hs : ∀ (n : Nat) (x : α), sizeOf x < n → P x by
    intro x
    exact hs (sizeOf x + 1) x (by omega)
  intro n
  induction n with
  | zero => intro x hx; omega
  | succ n ih => intro x hx; exact h x fun y hy => ih y (by omega)

theorem fromSerdeJsonList_eq_map :
    ∀ (vs : List JValue), fromSerdeJsonList vs = vs.map fromSerdeJson := by
  intro vs
  induction vs with
  | nil => rfl
  | cons v vs ih => simp [fromSerdeJsonList, ih]

theorem fromSerdeJsonEntries_eq_map :
    ∀ (kvs : List (String × JValue)),
      fromSerdeJsonEntries kvs = kvs.map fun kv => (kv.1, fromSerdeJson kv.2) := by
  intro kvs
  induction kvs with
  | nil => rfl
  | cons kv kvs ih =>
    obtain ⟨k, v⟩ := kv
    simp [fromSerdeJsonEntries, ih]

theorem sizeOf_lt_of_mem_arr {v : JValue} {xs : List JValue} (h : v ∈ xs) :
    sizeOf v < sizeOf (JValue.arr xs) := by
  have h1 := List.sizeOf_lt_of_mem h
  have h2 : sizeOf (JValue.arr xs) = 1 + sizeOf xs := by simp
  omega

theorem sizeOf_lt_of_mem_obj {k : String} {v : JValue} {xs : List (String × JValue)}
    (h : (k, v) ∈ xs) : sizeOf v < sizeOf (JValue.obj xs) := by
  have h1 := List.sizeOf_lt_of_mem h
  have h2 : sizeOf (JValue.obj xs) = 1 + sizeOf xs := by simp
  have h3 : sizeOf (k, v) = 1 + sizeOf k + sizeOf v := by simp
  omega

/-- Loading from parsed JSON establishes the size invariant everywhere. -/
theorem store_text : ∀ (n : JNumber), n.store.text = n.text := by
  intro n
  cases n with
  | int v => rfl
  | posInt u c =>
    by_cases h : u ≤ i64MaxNat
    · simp only [JNumber.store, JNumber.text, if_pos h]
    · simp only [JNumber.store, JNumber.text, if_neg h]
  | float c => rfl

theorem losslessList_iff :
    ∀ (vs : List JValue),
      losslessList vs = true ↔ ∀ v ∈ vs, JValue.losslessB v = true := by
  intro vs
  induction vs with
  | nil => simp [losslessList]
  | cons v vs ih => simp [losslessList, Bool.and_eq_true, ih]

theorem losslessEntries_iff :
    ∀ (kvs : List (String × JValue)),
      losslessEntries kvs = true ↔ ∀ kv ∈ kvs, JValue.losslessB kv.2 = true := by
  intro kvs
  induction kvs with
  | nil => simp [losslessEntries]
  | cons kv kvs ih =>
    obtain ⟨k, v⟩ := kv
    simp [losslessEntries, Bool.and_eq_true, ih]

theorem fromSerdeJson_wfB :
    ∀ (v : JValue), JValue.losslessB v = true → Node.wfB (fromSerdeJson v) = true := by
  apply strongOnSize
  intro v ih hl
  match v with
  | .null => rfl
  | .bool b => cases b <;> rfl
  | .number n =>
    apply (wfB_mk_iff _ _ _).mpr
    refine ⟨rfl, ?_, rfl⟩
    simp [ppKind, linesBytes]
    cases n with
    | int v' => rfl
    | posInt u c =>
      have hu : u ≤ i64MaxNat := by
        simpa [JValue.losslessB] using hl
      simp only [JNumber.srcText, JNumber.store, JNumber.text, if_pos hu]
      rfl
    | float c => rfl
  | .str s =>
    apply (wfB_mk_iff _ _ _).mpr
    refine ⟨rfl, ?_, rfl⟩
    have h1 : strBytes "\"" = 1 := by decide
    simp [ppKind, linesBytes, strBytes_append, h1]
    omega
  | .arr vs =>
    show Node.wfB (Node.array (fromSerdeJsonList vs)) = true
    rw [fromSerdeJsonList_eq_map]
    cases vs with
    | nil => rfl
    | cons w ws =>
      rw [show Node.array ((w :: ws).map fromSerdeJson)
          = .mk ((((w :: ws).map fromSerdeJson).map Node.n_lines).sum + 2)
            ((((w :: ws).map fromSerdeJson).map Node.indented_n_bytes).sum
              + ((w :: ws).map fromSerdeJson).length
              + (((w :: ws).map fromSerdeJson).length - 1) + 3)
            (.arr ((w :: ws).map fromSerdeJson)) from rfl]
      apply wfB_mk_arr _ _ _ (by simp)
      · rw [wfListB_iff]
        intro x hx
        obtain ⟨y, hy, rfl⟩ := List.mem_map.mp hx
        have hl' : losslessList (w :: ws) = true := hl
        exact ih y (sizeOf_lt_of_mem_arr hy) ((losslessList_iff _).mp hl' y hy)
      · rfl
      · rfl
  | .obj kvs =>
    show Node.wfB (Node.object (fromSerdeJsonEntries kvs)) = true
    rw [fromSerdeJsonEntries_eq_map]
    cases kvs with
    | nil => rfl
    | cons kv kvs' =>
      rw [show Node.object ((kv :: kvs').map fun p => (p.1, fromSerdeJson p.2))
          = .mk ((((kv :: kvs').map fun p => (p.1, fromSerdeJson p.2)).map
                  fun q => q.2.n_lines).sum + 2)
            ((((kv :: kvs').map fun p => (p.1, fromSerdeJson p.2)).map
                fun q => 4 + strBytes q.1 + q.2.indented_n_bytes).sum
              + ((kv :: kvs').map fun p => (p.1, fromSerdeJson p.2)).length
              + (((kv :: kvs').map fun p => (p.1, fromSerdeJson p.2)).length - 1) + 3)
            (.obj ((kv :: kvs').map fun p => (p.1, fromSerdeJson p.2))) from rfl]
      apply wfB_mk_obj _ _ _ (by simp)
      · rw [wfEntriesB_iff]
        intro q hq
        obtain ⟨⟨k', v'⟩, hy, rfl⟩ := List.mem_map.mp hq
        have hl' : losslessEntries (kv :: kvs') = true := hl
        exact ih v' (sizeOf_lt_of_mem_obj hy)
          ((losslessEntries_iff _).mp hl' ⟨k', v'⟩ hy)
      · rfl
      · rfl

/-- `Node::load` in terms of the claims: a freshly loaded document is
well-formed, provided none of its integer literals exceeds `i64::MAX`
(otherwise the size invariant is already broken at load, see the C1
violation below). -/
theorem load_wf (v : JValue) (h : JValue.losslessB v = true) : Wf (fromSerdeJson v) :=
  fromSerdeJson_wfB v h

end Jedit

namespace Jedit

/-! ## Errors leave the tree untouched -/

theorem mutate_err_frame :
    ∀ (sel : List String) (t : Node) (m : NodeMutation) (e : MutationError) (t' : Node),
      t.mutate sel m = .err e t' → t' = t := by
  intro sel
  induction sel with
  | nil =>
    intro t m e t' h
    obtain ⟨l, b, data⟩ := t
    cases m with
    | replace node => simp [Node.mutate] at h
    | delete key =>
      cases data with
      | arr child =>
        cases hp : parseUsize key with
        | none =>
          simp only [Node.mutate, hp] at h
          injection h with h1 h2
          exact h2.symm
        | some index =>
          cases hg : child[index]? with
          | none =>
            simp only [Node.mutate, hp, hg] at h
            exact (MutateResult.noConfusion h)
          | some deleted =>
            simp only [Node.mutate, hp, hg] at h
            exact (MutateResult.noConfusion h)
      | obj entries =>
        cases hk : keyIdx entries key with
        | none =>
          simp only [Node.mutate, hk] at h
          injection h with h1 h2
          exact h2.symm
        | some index =>
          cases hg : entries[index]? with
          | none =>
            simp only [Node.mutate, hk, hg] at h
            injection h with h1 h2
            exact h2.symm
          | some deleted =>
            simp only [Node.mutate, hk, hg] at h
            exact (MutateResult.noConfusion h)
      | null => simp only [Node.mutate] at h; injection h with h1 h2; exact h2.symm
      | bool bv => simp only [Node.mutate] at h; injection h with h1 h2; exact h2.symm
      | number nv => simp only [Node.mutate] at h; injection h with h1 h2; exact h2.symm
      | str sv => simp only [Node.mutate] at h; injection h with h1 h2; exact h2.symm
    | append after key node =>
      cases key with
      | array =>
        cases data with
        | arr child =>
          cases hp : parseUsize after with
          | none =>
            simp only [Node.mutate, hp] at h
            injection h with h1 h2
            exact h2.symm
          | some index =>
            by_cases hle : index + 1 ≤ child.length
            · simp only [Node.mutate, hp, if_pos hle] at h
              exact (MutateResult.noConfusion h)
            · simp only [Node.mutate, hp, if_neg hle] at h
              exact (MutateResult.noConfusion h)
        | obj entries => simp only [Node.mutate] at h; injection h with h1 h2; exact h2.symm
        | null => simp only [Node.mutate] at h; injection h with h1 h2; exact h2.symm
        | bool bv => simp only [Node.mutate] at h; injection h with h1 h2; exact h2.symm
        | number nv => simp only [Node.mutate] at h; injection h with h1 h2; exact h2.symm
        | str sv => simp only [Node.mutate] at h; injection h with h1 h2; exact h2.symm
      | object new_key =>
        cases data with
        | obj entries =>
          by_cases hdup : containsKey entries new_key
          · simp only [Node.mutate, hdup, if_true] at h
            injection h with h1 h2
            exact h2.symm
          · cases hk : keyIdx entries after with
            | none =>
              simp only [Node.mutate, hdup, if_false, hk] at h
              injection h with h1 h2
              exact h2.symm
            | some index =>
              simp only [Node.mutate, hdup, if_false, hk] at h
              exact (MutateResult.noConfusion h)
        | arr child => simp only [Node.mutate] at h; injection h with h1 h2; exact h2.symm
        | null => simp only [Node.mutate] at h; injection h with h1 h2; exact h2.symm
        | bool bv => simp only [Node.mutate] at h; injection h with h1 h2; exact h2.symm
        | number nv => simp only [Node.mutate] at h; injection h with h1 h2; exact h2.symm
        | str sv => simp only [Node.mutate] at h; injection h with h1 h2; exact h2.symm
    | rename before after =>
      cases data with
      | arr child =>
        simp only [Node.mutate] at h
        injection h with h1 h2
        exact h2.symm
      | obj entries =>
        by_cases hdup : containsKey entries after
        · simp only [Node.mutate, hdup, if_true] at h
          injection h with h1 h2
          exact h2.symm
        · cases hk : keyIdx entries before with
          | none =>
            simp only [Node.mutate, hdup, if_false, hk] at h
            injection h with h1 h2
            exact h2.symm
          | some index =>
            cases hg : entries[index]? with
            | none =>
              simp only [Node.mutate, hdup, if_false, hk, hg] at h
              injection h with h1 h2
              exact h2.symm
            | some entry =>
              simp only [Node.mutate, hdup, if_false, hk, hg] at h
              exact (MutateResult.noConfusion h)
      | null => simp only [Node.mutate] at h; injection h with h1 h2; exact h2.symm
      | bool bv => simp only [Node.mutate] at h; injection h with h1 h2; exact h2.symm
      | number nv => simp only [Node.mutate] at h; injection h with h1 h2; exact h2.symm
      | str sv => simp only [Node.mutate] at h; injection h with h1 h2; exact h2.symm
  | cons next rest ih =>
    intro t m e t' h
    obtain ⟨l, b, data⟩ := t
    cases data with
    | arr nodes =>
      cases hp : parseUsize next with
      | none =>
        simp only [Node.mutate, hp] at h
        injection h with h1 h2
        exact h2.symm
      | some i =>
        cases hg : nodes[i]? with
        | none =>
          simp only [Node.mutate, hp, hg] at h
          injection h with h1 h2
          exact h2.symm
        | some child =>
          cases hm : child.mutate rest m with
          | panic =>
            simp only [Node.mutate, hp, hg, hm] at h
            exact (MutateResult.noConfusion h)
          | ok old c' =>
            simp only [Node.mutate, hp, hg, hm] at h
            exact (MutateResult.noConfusion h)
          | err e1 c' =>
            simp only [Node.mutate, hp, hg, hm] at h
            injection h with h1 h2
            have hc := ih child m e1 c' hm
            rw [← h2, hc, set_getElem_self nodes i child hg]
    | obj entries =>
      cases hk : keyIdx entries next with
      | none =>
        simp only [Node.mutate, hk] at h
        injection h with h1 h2
        exact h2.symm
      | some i =>
        cases hg : entries[i]? with
        | none =>
          simp only [Node.mutate, hk, hg] at h
          injection h with h1 h2
          exact h2.symm
        | some entry =>
          cases hm : entry.2.mutate rest m with
          | panic =>
            simp only [Node.mutate, hk, hg, hm] at h
            exact (MutateResult.noConfusion h)
          | ok old c' =>
            simp only [Node.mutate, hk, hg, hm] at h
            exact (MutateResult.noConfusion h)
          | err e1 c' =>
            simp only [Node.mutate, hk, hg, hm] at h
            injection h with h1 h2
            have hc := ih entry.2 m e1 c' hm
            rw [← h2, hc, set_getElem_self entries i entry hg]
    | null => simp only [Node.mutate] at h; injection h with h1 h2; exact h2.symm
    | bool bv => simp only [Node.mutate] at h; injection h with h1 h2; exact h2.symm
    | number nv => simp only [Node.mutate] at h; injection h with h1 h2; exact h2.symm
    | str sv => simp only [Node.mutate] at h; injection h with h1 h2; exact h2.symm

end Jedit

namespace Jedit

theorem lt_of_getElem? {α : Type} :
    ∀ (xs : List α) (i : Nat) (x : α), xs[i]? = some x → i < xs.length := by
  intro xs i x h
  by_contra hcon
  rw [List.getElem?_eq_none (by omega)] at h
  exact Option.noConfusion h

theorem ne_nil_of_getElem? {α : Type} (xs : List α) (i : Nat) (x : α)
    (h : xs[i]? = some x) : xs ≠ [] := by
  have := lt_of_getElem? xs i x h
  intro hc
  subst hc
  simp at this

/-- The payload of a mutation is itself well-formed (trees inserted by
`replace`/`append_after` come from `load` or `Node::null` in the
application). -/
def mutationWf : NodeMutation → Prop
  | .replace node => Wf node
  | .append _ _ node => Wf node
  | .delete _ => True
  | .rename _ _ => True

/-- A successful mutation preserves the size invariant at every node. -/
theorem mutate_preserves_wf :
    ∀ (sel : List String) (t : Node) (m : NodeMutation) (old : Option Node) (t' : Node),
      Wf t → mutationWf m → t.mutate sel m = .ok old t' → Wf t' := by
  intro sel
  induction sel with
  | nil =>
    intro t m old t' hwf hm h
    obtain ⟨l, b, data⟩ := t
    cases m with
    | replace node =>
      simp only [Node.mutate] at h
      injection h with h1 h2
      exact h2 ▸ hm
    | delete key =>
      cases data with
      | arr child =>
        cases hp : parseUsize key with
        | none =>
          simp only [Node.mutate, hp] at h
          exact (MutateResult.noConfusion h)
        | some index =>
          cases hg : child[index]? with
          | none =>
            simp only [Node.mutate, hp, hg] at h
            exact (MutateResult.noConfusion h)
          | some deleted =>
            simp only [Node.mutate, hp, hg] at h
            obtain ⟨hch, hl, hb⟩ := wfB_arr_dest l b child
              (ne_nil_of_getElem? child index deleted hg) hwf
            have hlt := lt_of_getElem? child index deleted hg
            cases hre : removeAt child index with
            | nil =>
              rw [hre] at h
              simp only [List.isEmpty_nil, if_true] at h
              injection h with h1 h2
              exact h2 ▸ (wfB_arr_nil 1 2).mpr ⟨rfl, rfl⟩
            | cons r rs =>
              rw [hre] at h
              simp only [List.isEmpty_cons, Bool.false_eq_true, if_false] at h
              injection h with h1 h2
              have hs1 := sum_map_removeAt Node.n_lines child index deleted hg
              have hs2 := sum_map_removeAt Node.indented_n_bytes child index deleted hg
              have hlen := length_removeAt (α := Node) child index hlt
              rw [hre] at hs1 hs2 hlen
              have hmem : wfListB (r :: rs) = true := by
                rw [wfListB_iff]
                intro x hx
                exact (wfListB_iff child).mp hch x (mem_removeAt child index x (hre ▸ hx))
              refine h2 ▸ wfB_mk_arr _ _ _ (by simp) hmem ?_ ?_
              · have hdl : deleted.n_lines ≤ (child.map Node.n_lines).sum :=
                  elem_le_sum Node.n_lines child index deleted hg
                omega
              · have hdi : deleted.indented_n_bytes ≤ (child.map Node.indented_n_bytes).sum :=
                  elem_le_sum Node.indented_n_bytes child index deleted hg
                have hlc : (r :: rs).length = rs.length + 1 := rfl
                omega
      | obj entries =>
        cases hk : keyIdx entries key with
        | none =>
          simp only [Node.mutate, hk] at h
          exact (MutateResult.noConfusion h)
        | some index =>
          cases hg : entries[index]? with
          | none =>
            simp only [Node.mutate, hk, hg] at h
            exact (MutateResult.noConfusion h)
          | some deleted =>
            simp only [Node.mutate, hk, hg] at h
            obtain ⟨v, hv⟩ := keyIdx_some entries key index hk
            rw [hg] at hv
            injection hv with hv
            obtain ⟨hch, hl, hb⟩ := wfB_obj_dest l b entries
              (ne_nil_of_getElem? entries index deleted hg) hwf
            have hlt := lt_of_getElem? entries index deleted hg
            cases hre : removeAt entries index with
            | nil =>
              rw [hre] at h
              simp only [List.isEmpty_nil, if_true] at h
              injection h with h1 h2
              exact h2 ▸ (wfB_obj_nil 1 2).mpr ⟨rfl, rfl⟩
            | cons r rs =>
              rw [hre] at h
              simp only [List.isEmpty_cons, Bool.false_eq_true, if_false] at h
              injection h with h1 h2
              have hs1 := sum_map_removeAt (fun kv => kv.2.n_lines) entries index deleted hg
              have hs2 := sum_map_removeAt (fun kv => 4 + strBytes kv.1 + kv.2.indented_n_bytes)
                entries index deleted hg
              dsimp only at hs1 hs2
              have hlen := length_removeAt (α := String × Node) entries index hlt
              rw [hre] at hs1 hs2 hlen
              have hmem : wfEntriesB (r :: rs) = true := by
                rw [wfEntriesB_iff]
                intro x hx
                exact (wfEntriesB_iff entries).mp hch x (mem_removeAt entries index x (hre ▸ hx))
              refine h2 ▸ wfB_mk_obj _ _ _ (by simp) hmem ?_ ?_
              · have hdl : deleted.2.n_lines ≤ (entries.map fun kv => kv.2.n_lines).sum :=
                  elem_le_sum (fun kv => kv.2.n_lines) entries index deleted hg
                omega
              · have hdi : 4 + strBytes deleted.1 + deleted.2.indented_n_bytes
                    ≤ (entries.map fun kv => 4 + strBytes kv.1 + kv.2.indented_n_bytes).sum :=
                  elem_le_sum (fun kv => 4 + strBytes kv.1 + kv.2.indented_n_bytes)
                    entries index deleted hg
                have hlc : (r :: rs).length = rs.length + 1 := rfl
                have hkey : strBytes deleted.1 = strBytes key := by rw [hv]
                omega
      | null => simp only [Node.mutate] at h; exact (MutateResult.noConfusion h)
      | bool bv => simp only [Node.mutate] at h; exact (MutateResult.noConfusion h)
      | number nv => simp only [Node.mutate] at h; exact (MutateResult.noConfusion h)
      | str sv => simp only [Node.mutate] at h; exact (MutateResult.noConfusion h)
    | append after key node =>
      cases key with
      | array =>
        cases data with
        | arr child =>
          cases hp : parseUsize after with
          | none =>
            simp only [Node.mutate, hp] at h
            exact (MutateResult.noConfusion h)
          | some index =>
            by_cases hle : index + 1 ≤ child.length
            · simp only [Node.mutate, hp, if_pos hle] at h
              cases child with
              | nil => simp at hle
              | cons c cs =>
                simp only [List.isEmpty_cons, Bool.false_eq_true, if_false] at h
                injection h with h1 h2
                obtain ⟨hch, hl, hb⟩ := wfB_arr_dest l b (c :: cs) (by simp) hwf
                have hs1 := sum_map_insertAt Node.n_lines (c :: cs) (index + 1) node
                have hs2 := sum_map_insertAt Node.indented_n_bytes (c :: cs) (index + 1) node
                have hlen := length_insertAt (c :: cs) (index + 1) node hle
                have hne : insertAt (c :: cs) (index + 1) node ≠ [] := by
                  intro hc
                  have := congrArg List.length hc
                  rw [hlen] at this
                  simp at this
                have hmem : wfListB (insertAt (c :: cs) (index + 1) node) = true := by
                  rw [wfListB_iff]
                  intro x hx
                  rcases mem_insertAt (c :: cs) (index + 1) node x hx with h' | h'
                  · exact (wfListB_iff (c :: cs)).mp hch x h'
                  · exact h' ▸ hm
                refine h2 ▸ wfB_mk_arr _ _ _ hne hmem ?_ ?_
                · omega
                · have hlc : (c :: cs).length = cs.length + 1 := rfl
                  omega
            · simp only [Node.mutate, hp, if_neg hle] at h
              exact (MutateResult.noConfusion h)
        | obj entries => simp only [Node.mutate] at h; exact (MutateResult.noConfusion h)
        | null => simp only [Node.mutate] at h; exact (MutateResult.noConfusion h)
        | bool bv => simp only [Node.mutate] at h; exact (MutateResult.noConfusion h)
        | number nv => simp only [Node.mutate] at h; exact (MutateResult.noConfusion h)
        | str sv => simp only [Node.mutate] at h; exact (MutateResult.noConfusion h)
      | object new_key =>
        cases data with
        | obj entries =>
          by_cases hdup : containsKey entries new_key
          · simp only [Node.mutate, hdup, if_true] at h
            exact (MutateResult.noConfusion h)
          · cases hk : keyIdx entries after with
            | none =>
              simp only [Node.mutate, hdup, if_false, hk] at h
              exact (MutateResult.noConfusion h)
            | some index =>
              simp only [Node.mutate, hdup, if_false, hk] at h
              obtain ⟨v, hv⟩ := keyIdx_some entries after index hk
              have hlt := lt_of_getElem? entries index (after, v) hv
              cases entries with
              | nil => simp at hlt
              | cons e es =>
                simp only [List.isEmpty_cons, Bool.false_eq_true, if_false] at h
                injection h with h1 h2
                obtain ⟨hch, hl, hb⟩ := wfB_obj_dest l b (e :: es) (by simp) hwf
                have hs1 := sum_map_insertAt (fun kv => kv.2.n_lines) (e :: es)
                  (index + 1) (new_key, node)
                have hs2 := sum_map_insertAt (fun kv => 4 + strBytes kv.1 + kv.2.indented_n_bytes)
                  (e :: es) (index + 1) (new_key, node)
                dsimp only at hs1 hs2
                have hlen := length_insertAt (e :: es) (index + 1) (new_key, node) (by omega)
                have hne : insertAt (e :: es) (index + 1) (new_key, node) ≠ [] := by
                  intro hc
                  have := congrArg List.length hc
                  rw [hlen] at this
                  simp at this
                have hmem : wfEntriesB (insertAt (e :: es) (index + 1) (new_key, node)) = true := by
                  rw [wfEntriesB_iff]
                  intro x hx
                  rcases mem_insertAt (e :: es) (index + 1) (new_key, node) x hx with h' | h'
                  · exact (wfEntriesB_iff (e :: es)).mp hch x h'
                  · exact h' ▸ hm
                refine h2 ▸ wfB_mk_obj _ _ _ hne hmem ?_ ?_
                · omega
                · have hlc : (e :: es).length = es.length + 1 := rfl
                  have hind : (new_key, node).2.indented_n_bytes = node.indented_n_bytes := rfl
                  have hfst : strBytes (new_key, node).1 = strBytes new_key := rfl
                  omega
        | arr child => simp only [Node.mutate] at h; exact (MutateResult.noConfusion h)
        | null => simp only [Node.mutate] at h; exact (MutateResult.noConfusion h)
        | bool bv => simp only [Node.mutate] at h; exact (MutateResult.noConfusion h)
        | number nv => simp only [Node.mutate] at h; exact (MutateResult.noConfusion h)
        | str sv => simp only [Node.mutate] at h; exact (MutateResult.noConfusion h)
    | rename before after =>
      cases data with
      | arr child => simp only [Node.mutate] at h; exact (MutateResult.noConfusion h)
      | obj entries =>
        by_cases hdup : containsKey entries after
        · simp only [Node.mutate, hdup, if_true] at h
          exact (MutateResult.noConfusion h)
        · cases hk : keyIdx entries before with
          | none =>
            simp only [Node.mutate, hdup, if_false, hk] at h
            exact (MutateResult.noConfusion h)
          | some index =>
            cases hg : entries[index]? with
            | none =>
              simp only [Node.mutate, hdup, if_false, hk, hg] at h
              exact (MutateResult.noConfusion h)
            | some entry =>
              simp only [Node.mutate, hdup, if_false, hk, hg] at h
              injection h with h1 h2
              obtain ⟨v, hv⟩ := keyIdx_some entries before index hk
              rw [hg] at hv
              injection hv with hv
              have hlt := lt_of_getElem? entries index entry hg
              have hdance := swap_dance entries index (after, entry.2) hlt
              rw [hdance] at h2
              obtain ⟨hch, hl, hb⟩ := wfB_obj_dest l b entries
                (ne_nil_of_getElem? entries index entry hg) hwf
              have hs1 := sum_map_set (fun kv => kv.2.n_lines) entries index
                (after, entry.2) entry hg
              have hs2 := sum_map_set (fun kv => 4 + strBytes kv.1 + kv.2.indented_n_bytes)
                entries index (after, entry.2) entry hg
              dsimp only at hs1 hs2
              have hlen : (entries.set index (after, entry.2)).length = entries.length :=
                List.length_set entries ..
              have hne : entries.set index (after, entry.2) ≠ [] := by
                intro hc
                have := congrArg List.length hc
                rw [hlen] at this
                simp at this
                exact ne_nil_of_getElem? entries index entry hg this
              have hmem : wfEntriesB (entries.set index (after, entry.2)) = true := by
                rw [wfEntriesB_iff]
                intro x hx
                rcases mem_set entries index (after, entry.2) x hx with h' | h'
                · exact (wfEntriesB_iff entries).mp hch x h'
                · rw [h']
                  exact (wfEntriesB_iff entries).mp hch entry (getElem?_mem entries index entry hg)
              refine h2 ▸ wfB_mk_obj _ _ _ hne hmem ?_ ?_
              · have heq : ((after, entry.2) : String × Node).2.n_lines = entry.2.n_lines := rfl
                omega
              · have hbd : 4 + strBytes entry.1 + entry.2.indented_n_bytes
                    ≤ (entries.map fun kv => 4 + strBytes kv.1 + kv.2.indented_n_bytes).sum :=
                  elem_le_sum (fun kv => 4 + strBytes kv.1 + kv.2.indented_n_bytes)
                    entries index entry hg
                have heq1 : strBytes ((after, entry.2) : String × Node).1 = strBytes after := rfl
                have heq2 : ((after, entry.2) : String × Node).2.indented_n_bytes
                    = entry.2.indented_n_bytes := rfl
                have hkey : strBytes entry.1 = strBytes before := by rw [hv]
                omega
      | null => simp only [Node.mutate] at h; exact (MutateResult.noConfusion h)
      | bool bv => simp only [Node.mutate] at h; exact (MutateResult.noConfusion h)
      | number nv => simp only [Node.mutate] at h; exact (MutateResult.noConfusion h)
      | str sv => simp only [Node.mutate] at h; exact (MutateResult.noConfusion h)
  | cons next rest ih =>
    intro t m old t' hwf hm h
    obtain ⟨l, b, data⟩ := t
    cases data with
    | arr nodes =>
      cases hp : parseUsize next with
      | none =>
        simp only [Node.mutate, hp] at h
        exact (MutateResult.noConfusion h)
      | some i =>
        cases hg : nodes[i]? with
        | none =>
          simp only [Node.mutate, hp, hg] at h
          exact (MutateResult.noConfusion h)
        | some child =>
          cases hmu : child.mutate rest m with
          | panic =>
            simp only [Node.mutate, hp, hg, hmu] at h
            exact (MutateResult.noConfusion h)
          | err e1 c' =>
            simp only [Node.mutate, hp, hg, hmu] at h
            exact (MutateResult.noConfusion h)
          | ok old1 c' =>
            simp only [Node.mutate, hp, hg, hmu] at h
            injection h with h1 h2
            obtain ⟨hch, hl, hb⟩ := wfB_arr_dest l b nodes
              (ne_nil_of_getElem? nodes i child hg) hwf
            have hcwf : Node.wfB child = true :=
              (wfListB_iff nodes).mp hch child (getElem?_mem nodes i child hg)
            have hcwf' : Wf c' := ih child m old1 c' hcwf hm hmu
            have hs1 := sum_map_set Node.n_lines nodes i c' child hg
            have hs2 := sum_map_set Node.indented_n_bytes nodes i c' child hg
            have hlen : (nodes.set i c').length = nodes.length := List.length_set nodes ..
            have hne : nodes.set i c' ≠ [] := by
              intro hc
              have := congrArg List.length hc
              rw [hlen] at this
              simp at this
              exact ne_nil_of_getElem? nodes i child hg this
            have hmem : wfListB (nodes.set i c') = true := by
              rw [wfListB_iff]
              intro x hx
              rcases mem_set nodes i c' x hx with h' | h'
              · exact (wfListB_iff nodes).mp hch x h'
              · exact h' ▸ hcwf'
            have hb1 : child.n_lines ≤ (nodes.map Node.n_lines).sum :=
              elem_le_sum Node.n_lines nodes i child hg
            have hb2 : child.indented_n_bytes ≤ (nodes.map Node.indented_n_bytes).sum :=
              elem_le_sum Node.indented_n_bytes nodes i child hg
            refine h2 ▸ wfB_mk_arr _ _ _ hne hmem ?_ ?_
            · omega
            · omega
    | obj entries =>
      cases hk : keyIdx entries next with
      | none =>
        simp only [Node.mutate, hk] at h
        exact (MutateResult.noConfusion h)
      | some i =>
        cases hg : entries[i]? with
        | none =>
          simp only [Node.mutate, hk, hg] at h
          exact (MutateResult.noConfusion h)
        | some entry =>
          cases hmu : entry.2.mutate rest m with
          | panic =>
            simp only [Node.mutate, hk, hg, hmu] at h
            exact (MutateResult.noConfusion h)
          | err e1 c' =>
            simp only [Node.mutate, hk, hg, hmu] at h
            exact (MutateResult.noConfusion h)
          | ok old1 c' =>
            simp only [Node.mutate, hk, hg, hmu] at h
            injection h with h1 h2
            obtain ⟨hch, hl, hb⟩ := wfB_obj_dest l b entries
              (ne_nil_of_getElem? entries i entry hg) hwf
            have hcwf : Node.wfB entry.2 = true :=
              (wfEntriesB_iff entries).mp hch entry (getElem?_mem entries i entry hg)
            have hcwf' : Wf c' := ih entry.2 m old1 c' hcwf hm hmu
            have hs1 := sum_map_set (fun kv => kv.2.n_lines) entries i (entry.1, c') entry hg
            have hs2 := sum_map_set (fun kv => 4 + strBytes kv.1 + kv.2.indented_n_bytes)
              entries i (entry.1, c') entry hg
            dsimp only at hs1 hs2
            have hlen : (entries.set i (entry.1, c')).length = entries.length :=
              List.length_set entries ..
            have hne : entries.set i (entry.1, c') ≠ [] := by
              intro hc
              have := congrArg List.length hc
              rw [hlen] at this
              simp at this
              exact ne_nil_of_getElem? entries i entry hg this
            have hmem : wfEntriesB (entries.set i (entry.1, c')) = true := by
              rw [wfEntriesB_iff]
              intro x hx
              rcases mem_set entries i (entry.1, c') x hx with h' | h'
              · exact (wfEntriesB_iff entries).mp hch x h'
              · exact h' ▸ hcwf'
            have hb1 : entry.2.n_lines ≤ (entries.map fun kv => kv.2.n_lines).sum :=
              elem_le_sum (fun kv => kv.2.n_lines) entries i entry hg
            have hb2 : 4 + strBytes entry.1 + entry.2.indented_n_bytes
                ≤ (entries.map fun kv => 4 + strBytes kv.1 + kv.2.indented_n_bytes).sum :=
              elem_le_sum (fun kv => 4 + strBytes kv.1 + kv.2.indented_n_bytes)
                entries i entry hg
            refine h2 ▸ wfB_mk_obj _ _ _ hne hmem ?_ ?_
            · have he1 : ((entry.1, c') : String × Node).2.n_lines = c'.n_lines := rfl
              omega
            · have he2 : strBytes ((entry.1, c') : String × Node).1 = strBytes entry.1 := rfl
              have he3 : ((entry.1, c') : String × Node).2.indented_n_bytes
                  = c'.indented_n_bytes := rfl
              omega
    | null => simp only [Node.mutate] at h; exact (MutateResult.noConfusion h)
    | bool bv => simp only [Node.mutate] at h; exact (MutateResult.noConfusion h)
    | number nv => simp only [Node.mutate] at h; exact (MutateResult.noConfusion h)
    | str sv => simp only [Node.mutate] at h; exact (MutateResult.noConfusion h)

end Jedit

namespace Jedit

/-! ## Round-trip with the canonical printer -/

mutual
/-- Modelled from the spec: the canonical pretty-printed lines of the
source text itself, i.e. of the parsed value before `load` converts it.
A number is rendered by `JNumber.text`, the serializer's form of its
stored value: on every value a canonically pretty-printed text can parse
to this is exactly the number as it stands in the source (canonical text
only ever contains `i64`-range integers and canonical float forms, never
a `PosInt` above `i64::MAX`, since that is all the serializer emits). -/
def jppValue : JValue → List String
  | .null => ["null"]
  | .bool b => [if b then "true" else "false"]
  | .number n => [n.text]
  | .str s => ["\"" ++ s ++ "\""]
  | .arr [] => ["[]"]
  | .arr (x :: xs) => "[" :: ppChildren (jppValue x :: jppList xs) ++ ["]"]
  | .obj [] => ["\x7b\x7d"]
  | .obj ((k, v) :: xs) =>
      "\x7b" :: ppChildren (entryLines k (jppValue v) :: jppEntries xs) ++ ["\x7d"]

def jppList : List JValue → List (List String)
  | [] => []
  | x :: xs => jppValue x :: jppList xs

def jppEntries : List (String × JValue) → List (List String)
  | [] => []
  | (k, v) :: xs => entryLines k (jppValue v) :: jppEntries xs
end

theorem jppList_eq_map : ∀ (vs : List JValue), jppList vs = vs.map jppValue := by
  intro vs
  induction vs with
  | nil => rfl
  | cons v vs ih => simp [jppList, ih]

theorem jppEntries_eq_map :
    ∀ (kvs : List (String × JValue)),
      jppEntries kvs = kvs.map fun kv => entryLines kv.1 (jppValue kv.2) := by
  intro kvs
  induction kvs with
  | nil => rfl
  | cons kv kvs ih =>
    obtain ⟨k, v⟩ := kv
    simp [jppEntries, ih]

/-- Loading does not change what the document prints as. -/
theorem ppNode_fromSerdeJson : ∀ (v : JValue), ppNode (fromSerdeJson v) = jppValue v := by
  apply strongOnSize
  intro v ih
  match v with
  | .null => rfl
  | .bool b => cases b <;> rfl
  | .number n =>
    show [JNumber.text (JNumber.store n)] = [JNumber.text n]
    rw [store_text n]
  | .str s => rfl
  | .arr vs =>
    show ppNode (Node.array (fromSerdeJsonList vs)) = jppValue (.arr vs)
    rw [fromSerdeJsonList_eq_map]
    cases vs with
    | nil => rfl
    | cons w ws =>
      show ppKind (.arr (fromSerdeJson w :: ws.map fromSerdeJson)) = jppValue (.arr (w :: ws))
      have hj : jppValue (.arr (w :: ws))
          = "[" :: ppChildren (jppValue w :: jppList ws) ++ ["]"] := by
        simp [jppValue]
      have hp : ppKind (.arr (fromSerdeJson w :: ws.map fromSerdeJson))
          = "[" :: ppChildren (ppNode (fromSerdeJson w)
              :: ppNodes (ws.map fromSerdeJson)) ++ ["]"] := by
        simp [ppKind]
      rw [hp, hj, ih w (sizeOf_lt_of_mem_arr (by simp)),
        ppNodes_eq_map, jppList_eq_map, List.map_map]
      have : ∀ x ∈ ws, (ppNode ∘ fromSerdeJson) x = jppValue x := by
        intro x hx
        exact ih x (sizeOf_lt_of_mem_arr (by simp [hx]))
      rw [List.map_congr_left this]
  | .obj kvs =>
    show ppNode (Node.object (fromSerdeJsonEntries kvs)) = jppValue (.obj kvs)
    rw [fromSerdeJsonEntries_eq_map]
    cases kvs with
    | nil => rfl
    | cons kv kvs' =>
      obtain ⟨k, v⟩ := kv
      show ppKind (.obj ((k, fromSerdeJson v) :: kvs'.map fun p => (p.1, fromSerdeJson p.2)))
          = jppValue (.obj ((k, v) :: kvs'))
      have hj : jppValue (.obj ((k, v) :: kvs'))
          = "\x7b" :: ppChildren (entryLines k (jppValue v) :: jppEntries kvs') ++ ["\x7d"] := by
        simp [jppValue]
      have hp : ppKind (.obj ((k, fromSerdeJson v)
            :: kvs'.map fun p => (p.1, fromSerdeJson p.2)))
          = "\x7b" :: ppChildren (entryLines k (ppNode (fromSerdeJson v))
              :: ppEntries (kvs'.map fun p => (p.1, fromSerdeJson p.2))) ++ ["\x7d"] := by
        simp [ppKind]
      rw [hp, hj, ih v (sizeOf_lt_of_mem_obj (show (k, v) ∈ (k, v) :: kvs' by simp)),
        ppEntries_eq_map, jppEntries_eq_map, List.map_map]
      have : ∀ p ∈ kvs',
          ((fun kv => entryLines kv.1 (ppNode kv.2)) ∘ fun p => (p.1, fromSerdeJson p.2)) p
            = entryLines p.1 (jppValue p.2) := by
        intro p hp'
        obtain ⟨k', v'⟩ := p
        show entryLines k' (ppNode (fromSerdeJson v')) = entryLines k' (jppValue v')
        rw [ih v' (sizeOf_lt_of_mem_obj (List.mem_cons_of_mem (k, v) hp'))]
      rw [List.map_congr_left this]

end Jedit

namespace Jedit

/-! ## Claim theorems for the document tree -/

/-- C1 is already false at `load`: loading the integer literal
`10000000000000000000` (a `u64` in `(i64::MAX, u64::MAX]`; `10^19` is
exactly representable in `f64` since its odd part `5^19 < 2^53`, and the
shortest round-trip serialization of that `f64` — what serde_json/ryu and
sonic_rs print — is `"1e19"`) caches `n_bytes = 20` from the 20-digit
serialization of the original `serde_json::Number`, but stores the lossy
`as_f64` coercion, whose pretty-printed text has 4 bytes: the size
invariant `n_bytes == len(pretty_print(n))` fails on the freshly loaded
tree, before any mutation. -/
theorem c1_size_invariant_violation :
    Node.n_bytes (fromSerdeJson (JValue.number
        (.posInt 10000000000000000000 "1e19"))) = 20 ∧
    strBytes (Node.to_string_pretty (fromSerdeJson (JValue.number
        (.posInt 10000000000000000000 "1e19")))) = 4 ∧
    Node.wfB (fromSerdeJson (JValue.number
        (.posInt 10000000000000000000 "1e19"))) = false :=
  ⟨by decide, by decide, by decide⟩

/-- C1 complement (the invariant as maintained by the code): for a
document none of whose integer literals exceeds `i64::MAX` (so every
number survives `Node::number`'s `as_i64`-or-`as_f64` conversion
losslessly), `load` establishes the size invariant everywhere, and every
successful mutation (replace, delete, append_after, rename; for
replace/append with a well-formed payload such as `Node::null` or a
loaded subtree) preserves it. -/
theorem c1_size_invariant_i64 :
    (∀ (v : JValue), JValue.losslessB v = true → Wf (fromSerdeJson v)) ∧
    ∀ (t : Node) (sel : List String), Wf t →
      (∀ (node : Node) (old : Option Node) (t' : Node), Wf node →
        Node.replace t sel node = .ok old t' → Wf t') ∧
      (∀ (old : Option Node) (t' : Node), Node.delete t sel = .ok old t' → Wf t') ∧
      (∀ (key : AddNodeKey) (node : Node) (old : Option Node) (t' : Node), Wf node →
        Node.append_after t sel key node = .ok old t' → Wf t') ∧
      (∀ (new_name : String) (old : Option Node) (t' : Node),
        Node.rename t sel new_name = .ok old t' → Wf t') := by
  refine ⟨load_wf, ?_⟩
  intro t sel hwf
  refine ⟨?_, ?_, ?_, ?_⟩
  · intro node old t' hn h
    exact mutate_preserves_wf sel t (.replace node) old t' hwf hn h
  · intro old t' h
    cases hg : sel.getLast? with
    | none =>
      simp only [Node.delete, hg] at h
      exact (MutateResult.noConfusion h)
    | some last =>
      simp only [Node.delete, hg] at h
      exact mutate_preserves_wf sel.dropLast t (.delete last) old t' hwf trivial h
  · intro key node old t' hn h
    cases hg : sel.getLast? with
    | none =>
      simp only [Node.append_after, hg] at h
      exact (MutateResult.noConfusion h)
    | some last =>
      simp only [Node.append_after, hg] at h
      exact mutate_preserves_wf sel.dropLast t (.append last key node) old t' hwf hn h
  · intro new_name old t' h
    cases hg : sel.getLast? with
    | none =>
      simp only [Node.rename, hg] at h
      exact (MutateResult.noConfusion h)
    | some last =>
      simp only [Node.rename, hg] at h
      exact mutate_preserves_wf sel.dropLast t (.rename last new_name) old t' hwf trivial h

/-- Witness for the restricted invariant: deleting `"a"` from a freshly
loaded `{"a": null, "b": true}` yields a tree that still satisfies the
size invariant everywhere. -/
theorem c1_size_invariant_i64_witness :
    Wf (fromSerdeJson (JValue.obj [("b", JValue.bool true)])) :=
  (c1_size_invariant_i64.2
      (fromSerdeJson (JValue.obj [("a", JValue.null), ("b", JValue.bool true)])) ["a"]
      (c1_size_invariant_i64.1 _ (by decide))).2.1
    (some Node.null) (fromSerdeJson (JValue.obj [("b", JValue.bool true)])) rfl

/-- C4: every Document Tree mutation (replace, delete, append_after,
rename) that returns an error leaves the document tree exactly as it was:
the returned state equals the input tree, so no node value, key, ordering
or cached size changed, and the serialized text is unchanged. -/
theorem c4_error_frame :
    ∀ (t : Node) (sel : List String) (e : MutationError) (t' : Node),
      (∀ (node : Node), Node.replace t sel node = .err e t' →
        t' = t ∧ Node.to_string_pretty t' = Node.to_string_pretty t) ∧
      (Node.delete t sel = .err e t' →
        t' = t ∧ Node.to_string_pretty t' = Node.to_string_pretty t) ∧
      (∀ (key : AddNodeKey) (node : Node), Node.append_after t sel key node = .err e t' →
        t' = t ∧ Node.to_string_pretty t' = Node.to_string_pretty t) ∧
      (∀ (new_name : String), Node.rename t sel new_name = .err e t' →
        t' = t ∧ Node.to_string_pretty t' = Node.to_string_pretty t) := by
  intro t sel e t'
  refine ⟨?_, ?_, ?_, ?_⟩
  · intro node h
    have := mutate_err_frame sel t (.replace node) e t' h
    exact ⟨this, by rw [this]⟩
  · intro h
    cases hg : sel.getLast? with
    | none =>
      simp only [Node.delete, hg] at h
      injection h with h1 h2
      exact ⟨h2.symm, by rw [h2]⟩
    | some last =>
      simp only [Node.delete, hg] at h
      have := mutate_err_frame sel.dropLast t (.delete last) e t' h
      exact ⟨this, by rw [this]⟩
  · intro key node h
    cases hg : sel.getLast? with
    | none =>
      simp only [Node.append_after, hg] at h
      injection h with h1 h2
      exact ⟨h2.symm, by rw [h2]⟩
    | some last =>
      simp only [Node.append_after, hg] at h
      have := mutate_err_frame sel.dropLast t (.append last key node) e t' h
      exact ⟨this, by rw [this]⟩
  · intro new_name h
    cases hg : sel.getLast? with
    | none =>
      simp only [Node.rename, hg] at h
      injection h with h1 h2
      exact ⟨h2.symm, by rw [h2]⟩
    | some last =>
      simp only [Node.rename, hg] at h
      have := mutate_err_frame sel.dropLast t (.rename last new_name) e t' h
      exact ⟨this, by rw [this]⟩

/-- Witness for C4: `append_after` with the already-existing key `"b"` on
`{"a": null, "b": null}` returns `DuplicateKey` and leaves the tree (and
its serialized text) unchanged. -/
theorem c4_error_frame_witness :
    (fromSerdeJson (JValue.obj [("a", JValue.null), ("b", JValue.null)]))
        = fromSerdeJson (JValue.obj [("a", JValue.null), ("b", JValue.null)]) ∧
      Node.to_string_pretty (fromSerdeJson (JValue.obj [("a", JValue.null), ("b", JValue.null)]))
        = Node.to_string_pretty (fromSerdeJson (JValue.obj [("a", JValue.null), ("b", JValue.null)])) :=
  (c4_error_frame (fromSerdeJson (JValue.obj [("a", JValue.null), ("b", JValue.null)]))
    ["a"] .duplicateKey
    (fromSerdeJson (JValue.obj [("a", JValue.null), ("b", JValue.null)]))).2.2.1
    (.object "b") Node.null rfl

/-- Counterexample to C2 as stated: renaming key `"k"` of `{"k": 1}` to
its own current name `"k"` does return `DuplicateKey` (the duplicate
check `contains_key(&after)` runs before the renamed key is removed, so
the key collides with itself). -/
theorem c2_counterexample :
    Node.rename (fromSerdeJson (JValue.obj [("k", JValue.number (.int 1))])) ["k"] "k"
      = .err .duplicateKey (fromSerdeJson (JValue.obj [("k", JValue.number (.int 1))])) := rfl

/-- C2 (amended): a rename whose target name already exists among the
siblings — including the renamed key's own current name — fails with
`DuplicateKey` and leaves the tree unchanged; a rename to a fresh name
succeeds and replaces the entry in place, preserving the key's original
ordinal position among its siblings (the result is `es.set i (after, v)`). -/
theorem c2_rename_amended :
    ∀ (l b : Nat) (es : List (String × Node)) (i : Nat) (before after : String) (v : Node),
      keyIdx es before = some i → es[i]? = some (before, v) →
      (containsKey es after = true →
        Node.rename (.mk l b (.obj es)) [before] after
          = .err .duplicateKey (.mk l b (.obj es))) ∧
      (containsKey es after = false →
        Node.rename (.mk l b (.obj es)) [before] after
          = .ok none (.mk l (b + strBytes after - strBytes before)
              (.obj (es.set i (after, v))))) := by
  intro l b es i before after v hk hg
  have hred : Node.rename (Node.mk l b (.obj es)) [before] after
      = Node.mutate (Node.mk l b (.obj es)) [] (.rename before after) := rfl
  constructor
  · intro hdup
    rw [hred]
    simp only [Node.mutate, hdup, if_true]
  · intro hdup
    rw [hred]
    simp only [Node.mutate, hdup, Bool.false_eq_true, if_false, hk, hg]
    have hlt := lt_of_getElem? es i (before, v) hg
    rw [swap_dance es i (after, (before, v).2) hlt]

/-- Witness for C2 (amended): renaming `"k"` of `{"a": null, "k": null}`
to the fresh name `"zz"` succeeds and keeps the key in second position. -/
theorem c2_rename_amended_witness :
    Node.rename (Node.mk 4 28 (.obj [("a", Node.null), ("k", Node.null)])) ["k"] "zz"
      = .ok none (Node.mk 4 (28 + strBytes "zz" - strBytes "k")
          (.obj ([("a", Node.null), ("k", Node.null)].set 1 ("zz", Node.null)))) :=
  (c2_rename_amended 4 28 [("a", Node.null), ("k", Node.null)] 1 "k" "zz" Node.null
    rfl rfl).2 rfl

/-- C3 evaluations: a final selector segment that parses as an integer but
is out of range does NOT return `MissingKey`: `delete` with out-of-range
final index `5` on `[1, 2, 3]` panics (`Vec::remove` out of bounds), and
`append_after` with out-of-range `after` segment `7` on `[1]` panics
(`Vec::insert` out of bounds), while a non-numeric final segment does
return `MissingKey`. -/
theorem c3_out_of_range_panics :
    Node.delete (fromSerdeJson (JValue.arr
        [JValue.number (.int 1), JValue.number (.int 2), JValue.number (.int 3)])) ["5"]
      = .panic ∧
    Node.append_after (fromSerdeJson (JValue.arr [JValue.number (.int 1)])) ["7"]
        .array Node.null
      = .panic ∧
    Node.delete (fromSerdeJson (JValue.arr
        [JValue.number (.int 1), JValue.number (.int 2), JValue.number (.int 3)])) ["abc"]
      = .err (.missingKey "abc") (fromSerdeJson (JValue.arr
          [JValue.number (.int 1), JValue.number (.int 2), JValue.number (.int 3)])) :=
  ⟨rfl, rfl, rfl⟩

/-- C5 evaluations: `append_after` into an empty object can never succeed:
the `after` segment is resolved with `get_index_of` before the
`is_empty` branch, and on an empty object that always fails with
`MissingKey`, so the empty-container size formula is unreachable;
concretely, appending a first key into the empty object of
`{"o": {}}` returns `MissingKey("x")`. -/
theorem c5_empty_append_unreachable :
    (∀ (l b : Nat) (after new_key : String) (node : Node),
      Node.mutate (.mk l b (.obj [])) [] (.append after (.object new_key) node)
        = .err (.missingKey after) (.mk l b (.obj []))) ∧
    Node.append_after (fromSerdeJson (JValue.obj [("o", JValue.obj [])])) ["o", "x"]
        (.object "k") Node.null
      = .err (.missingKey "x") (fromSerdeJson (JValue.obj [("o", JValue.obj [])])) := by
  refine ⟨?_, rfl⟩
  intro l b after new_key node
  simp [Node.mutate, containsKey, keyIdx]

/-- C5 complement: appending a key after an existing key of a non-empty
object uses the non-empty insertion formula (`n_lines + node.n_lines`,
`n_bytes + indented + key length + 6`), inserting right after it. -/
theorem c5_nonempty_append_formula :
    ∀ (l b : Nat) (e : String × Node) (es : List (String × Node)) (i : Nat)
      (after new_key : String) (node : Node),
      containsKey (e :: es) new_key = false → keyIdx (e :: es) after = some i →
      Node.mutate (.mk l b (.obj (e :: es))) [] (.append after (.object new_key) node)
        = .ok none (.mk (l + node.n_lines)
            (b + node.indented_n_bytes + strBytes new_key + 6)
            (.obj (insertAt (e :: es) (i + 1) (new_key, node)))) := by
  intro l b e es i after new_key node hdup hk
  simp only [Node.mutate, hdup, Bool.false_eq_true, if_false, hk,
    List.isEmpty_cons]

/-- C6: for every document loaded from canonically pretty-printed text
`T` (i.e. `T` is the canonical rendering of its parsed value `v`),
pretty-printing the loaded tree yields a byte-identical string:
`to_string_pretty (load v)` equals that canonical rendering. -/
theorem c6_round_trip :
    ∀ (v : JValue), Node.to_string_pretty (fromSerdeJson v) = joinLines (jppValue v) := by
  intro v
  unfold Node.to_string_pretty
  rw [ppNode_fromSerdeJson]

end Jedit

namespace Jedit

/-! ## The View Tree (`worktree_node.rs`) -/

/-- `IndexKind` from `node.rs`. -/
inductive IndexKind where
  | terminal
  | object (keys : List String)
  | array (n : Nat)

/-- `Index` from `node.rs`. -/
structure Index where
  meta : NodeMeta
  kind : IndexKind

/-- `WorkTreeNode` from `worktree_node.rs`: `child = none` is a collapsed
(unmaterialized) node. -/
inductive WTNode where
  | mk (name : String) (len : Nat) (meta : Option NodeMeta) (child : Option (List WTNode))

def WTNode.name : WTNode → String
  | .mk nm _ _ _ => nm

def WTNode.len : WTNode → Nat
  | .mk _ l _ _ => l

def WTNode.meta : WTNode → Option NodeMeta
  | .mk _ _ m _ => m

def WTNode.child : WTNode → Option (List WTNode)
  | .mk _ _ _ c => c

/-- `WorkTreeNode::new`. -/
def WTNode.new (name : String) (meta : Option NodeMeta) : WTNode := .mk name 1 meta none

/-- `WorkTreeNode::new_empty`. -/
def WTNode.new_empty (name : String) : WTNode := .mk name 1 none none

mutual
/-- `WorkTreeNode::traverse_node_mut`, with the `RefCell` state the hooks
share threaded explicitly as `σ`.  Every call site in the source passes a
no-op `before_visit_hook`, so it is omitted.  `none` models the
`panic!` (unexpected index) / `unreachable!()` outcomes, and an
`after_visit_hook` that can panic (`delete`'s `expect`) returns `none`. -/
def traverseWT {σ : Type} (onFound : WTNode → σ → WTNode × σ)
    (afterHook : WTNode → Option Nat → σ → Option (WTNode × σ)) :
    WTNode → Nat → σ → Option (WTNode × σ)
  | n, i, s =>
    if i = 0 then
      let fs := onFound n s
      afterHook fs.1 none fs.2
    else if n.len ≤ i then none
    else
      match n with
      | .mk name len meta child =>
        match child with
        | none => none
        | some cs =>
          match scanWT onFound afterHook cs (i - 1) s with
          | none => none
          | some (cs', j, s') => afterHook (.mk name len meta (some cs')) (some j) s'

def scanWT {σ : Type} (onFound : WTNode → σ → WTNode × σ)
    (afterHook : WTNode → Option Nat → σ → Option (WTNode × σ)) :
    List WTNode → Nat → σ → Option (List WTNode × Nat × σ)
  | [], _, _ => none
  | c :: cs, i, s =>
    if i < c.len then
      match traverseWT onFound afterHook c i s with
      | none => none
      | some (c', s') => some (c' :: cs, 0, s')
    else
      match scanWT onFound afterHook cs (i - c.len) s with
      | none => none
      | some (cs', j, s') => some (c :: cs', j + 1, s')
end

/-- The `(len, child)` pair `WorkTreeNode::reindex` computes from the
Document Tree `Index`. -/
def reindexLen (node_index : Index) : Nat :=
  match node_index.kind with
  | .terminal => 1
  | .object items => items.length + 1
  | .array n => n + 1

def reindexChildren (node_index : Index) : List WTNode :=
  match node_index.kind with
  | .terminal => []
  | .object items => items.map WTNode.new_empty
  | .array n => (List.range n).map fun i => WTNode.new_empty (toString i)

/-- The `on_found_hook` of `WorkTreeNode::reindex`. -/
def reindexOnFound (node_index : Index) (force : Bool) (n : WTNode) (s : Option Nat) :
    WTNode × Option Nat :=
  if n.child.isSome || force then
    (.mk n.name n.len (some node_index.meta) (some (reindexChildren node_index)),
      some n.len)
  else (.mk n.name n.len (some node_index.meta) n.child, s)

/-- The `after_visit_hook` of `WorkTreeNode::reindex`. -/
def reindexAfter (node_index : Index) (n : WTNode) (_ci : Option Nat) (s : Option Nat) :
    Option (WTNode × Option Nat) :=
  match s with
  | some old_len =>
    some (.mk n.name (n.len - old_len + reindexLen node_index) n.meta n.child,
      some old_len)
  | none => some (n, none)

/-- `WorkTreeNode::reindex`.  The shared `old_len : RefCell<Option<usize>>`
is the threaded state. -/
def WTNode.reindex (t : WTNode) (index : Nat) (node_index : Index) (force : Bool) :
    Option WTNode :=
  match traverseWT (reindexOnFound node_index force) (reindexAfter node_index)
      t index (none : Option Nat) with
  | none => none
  | some fs => some fs.1

/-- The `on_found_hook` of `WorkTreeNode::close`. -/
def closeOnFound (n : WTNode) (_s : Nat) : WTNode × Nat :=
  (.mk n.name n.len n.meta none, n.len - 1)

/-- The `after_visit_hook` of `WorkTreeNode::close`. -/
def closeAfter (n : WTNode) (_ci : Option Nat) (s : Nat) : Option (WTNode × Nat) :=
  some (.mk n.name (n.len - s) n.meta n.child, s)

/-- `WorkTreeNode::close`.  The shared `old_len : RefCell<usize>` starts
at 1. -/
def WTNode.close (t : WTNode) (index : Nat) : Option WTNode :=
  match traverseWT closeOnFound closeAfter t index (1 : Nat) with
  | none => none
  | some fs => some fs.1

/-- The `on_found_hook` of `WorkTreeNode::rename`. -/
def renameOnFound (new_key : String) (n : WTNode) (_s : Nat) : WTNode × Nat :=
  (.mk new_key n.len n.meta n.child, strBytes n.name)

/-- The `after_visit_hook` of `WorkTreeNode::rename`. -/
def renameAfter (new_key : String) (n : WTNode) (_ci : Option Nat) (old : Nat) :
    Option (WTNode × Nat) :=
  some (.mk n.name n.len
    (n.meta.map fun m => NodeMeta.mk m.n_lines (m.n_bytes - old + strBytes new_key) m.kind)
    n.child, old)

/-- `WorkTreeNode::rename`.  The shared `old_key_len : RefCell<usize>`
starts at 0. -/
def WTNode.rename (t : WTNode) (index : Nat) (new_key : String) : Option WTNode :=
  match traverseWT (renameOnFound new_key) (renameAfter new_key) t index (0 : Nat) with
  | none => none
  | some fs => some fs.1

/-- The array renumbering loop in `WorkTreeNode::delete`:
`child.name = index.to_string()` for every remaining child. -/
def renumberFrom : Nat → List WTNode → List WTNode
  | _, [] => []
  | i, c :: cs => .mk (toString i) c.len c.meta c.child :: renumberFrom (i + 1) cs

/-- The `after_visit_hook` of `WorkTreeNode::delete`: the state is
(`should_delete : RefCell<bool>`, the mutable `parent_metas` vector,
popped from its end); a failing `pop().expect(…)` is a panic (`none`). -/
def deleteAfter (n : WTNode) (ci : Option Nat) (s : Bool × List NodeMeta) :
    Option (WTNode × (Bool × List NodeMeta)) :=
  if s.1 then
    match n.child, ci with
    | some cs, some j =>
      let cs' := removeAt cs j
      match n.meta with
      | none => some (.mk n.name n.len n.meta (some cs'), s)
      | some m =>
        let cs'' := if m.kind = .array then renumberFrom 0 cs' else cs'
        match s.2.getLast? with
        | none => none
        | some popped =>
          some (.mk n.name (n.len - 1) (some popped) (some cs''),
            (false, s.2.dropLast))
    | _, _ => some (n, s)
  else
    match s.2.getLast? with
    | none => none
    | some popped =>
      some (.mk n.name (n.len - 1) (some popped) n.child, (s.1, s.2.dropLast))

/-- `WorkTreeNode::delete` (its `on_found_hook` does nothing). -/
def WTNode.delete (t : WTNode) (index : Nat) (parent_metas : List NodeMeta) :
    Option WTNode :=
  match traverseWT (fun n s => (n, s)) deleteAfter
      t index ((true, parent_metas) : Bool × List NodeMeta) with
  | none => none
  | some fs => some fs.1

/-- The dash prefix of `formatted_name` (`prefix(depth)`: `2 * depth`
dashes). -/
def formattedName (name : String) (depth : Nat) : String :=
  String.mk (List.replicate (2 * depth) '-') ++ name

mutual
/-- `WorkTreeNode::as_tree_string` / `WorkTreeStringIter`: the produced
sequence of formatted names, modelled by its direct pre-order recursion
(the iterator emits a node at stack depth equal to its tree depth). -/
def rowsOf (depth : Nat) : WTNode → List String
  | .mk name _ _ none => [formattedName name depth]
  | .mk name _ _ (some cs) => formattedName name depth :: rowsList (depth + 1) cs

def rowsList (depth : Nat) : List WTNode → List String
  | [] => []
  | c :: cs => rowsOf depth c ++ rowsList depth cs
end

def WTNode.as_tree_string (n : WTNode) : List String := rowsOf 0 n

end Jedit

namespace Jedit

/-! ## Row paths: the traversal as path surgery -/

mutual
/-- The list of child positions the row-index traversal walks through to
reach flat row `i` (the `index -= child.len` scan of
`traverse_node_mut`). -/
def rowPath : WTNode → Nat → Option (List Nat)
  | _, 0 => some []
  | n, i =>
    if n.len ≤ i then none
    else
      match n with
      | .mk _ _ _ none => none
      | .mk _ _ _ (some cs) =>
        match rowScan cs (i - 1) with
        | none => none
        | some jp => some (jp.1 :: jp.2)

def rowScan : List WTNode → Nat → Option (Nat × List Nat)
  | [], _ => none
  | c :: cs, i =>
    if i < c.len then
      match rowPath c i with
      | none => none
      | some p => some (0, p)
    else
      match rowScan cs (i - c.len) with
      | none => none
      | some jp => some (jp.1 + 1, jp.2)
end

/-- The node sitting at a child-position path. -/
def nodeAtPath : WTNode → List Nat → Option WTNode
  | n, [] => some n
  | n, j :: p =>
    match n.child with
    | none => none
    | some cs =>
      match cs[j]? with
      | none => none
      | some c => nodeAtPath c p

/-- Hook application along a fixed path: `onFound` at the end of the
path, then `afterHook` bottom-up with the child position, exactly the
unwinding of `traverse_node_mut`. -/
def applyAtPath {σ : Type} (onFound : WTNode → σ → WTNode × σ)
    (afterHook : WTNode → Option Nat → σ → Option (WTNode × σ)) :
    WTNode → List Nat → σ → Option (WTNode × σ)
  | n, [], s =>
    let fs := onFound n s
    afterHook fs.1 none fs.2
  | .mk name len meta child, j :: p, s =>
    match child with
    | none => none
    | some cs =>
      match cs[j]? with
      | none => none
      | some c =>
        match applyAtPath onFound afterHook c p s with
        | none => none
        | some (c', s') => afterHook (.mk name len meta (some (cs.set j c'))) (some j) s'

/-- Replacing only the cached `meta` of the node at a path (the entire
effect of a non-forced `reindex` on an unmaterialized row). -/
def setMetaPath : WTNode → List Nat → NodeMeta → WTNode
  | .mk name len _ child, [], m => .mk name len (some m) child
  | .mk name len meta child, j :: p, m =>
    match child with
    | none => .mk name len meta child
    | some cs =>
      match cs[j]? with
      | none => .mk name len meta (some cs)
      | some c => .mk name len meta (some (cs.set j (setMetaPath c p m)))

/-! ## The flat-row invariant -/

def sumLenWT (cs : List WTNode) : Nat := (cs.map WTNode.len).sum

mutual
/-- The spec's View Tree invariant: every node's `len` is 1 when its
children are not materialized and `1 +` the sum of its children's `len`
when they are. -/
def wfLenB : WTNode → Bool
  | .mk _ len _ none => len == 1
  | .mk _ len _ (some cs) => (len == 1 + sumLenWT cs) && wfLenList cs

def wfLenList : List WTNode → Bool
  | [] => true
  | c :: cs => wfLenB c && wfLenList cs
end

mutual
/-- The maintained invariant: the flat-row invariant plus the fact that a
materialized node always carries a cached `meta` (reindex is the only way
to materialize and always sets it). -/
def wfViewB : WTNode → Bool
  | .mk _ len _ none => len == 1
  | .mk _ len meta (some cs) => meta.isSome && (len == 1 + sumLenWT cs) && wfViewList cs

def wfViewList : List WTNode → Bool
  | [] => true
  | c :: cs => wfViewB c && wfViewList cs
end

theorem wfLenList_iff : ∀ (cs : List WTNode), wfLenList cs = true ↔ ∀ c ∈ cs, wfLenB c = true := by
  intro cs
  induction cs with
  | nil => simp [wfLenList]
  | cons c cs ih => simp [wfLenList, Bool.and_eq_true, ih]

theorem wfViewList_iff : ∀ (cs : List WTNode), wfViewList cs = true ↔ ∀ c ∈ cs, wfViewB c = true := by
  intro cs
  induction cs with
  | nil => simp [wfViewList]
  | cons c cs ih => simp [wfViewList, Bool.and_eq_true, ih]

theorem sizeOf_child_lt {c : WTNode} {cs : List WTNode}
    (nm : String) (len : Nat) (meta : Option NodeMeta) (h : c ∈ cs) :
    sizeOf c < sizeOf (WTNode.mk nm len meta (some cs)) := by
  have h1 := List.sizeOf_lt_of_mem h
  have h2 : sizeOf (WTNode.mk nm len meta (some cs))
      = 1 + sizeOf nm + sizeOf len + sizeOf meta + (1 + sizeOf cs) := by simp
  omega

theorem wfView_imp_wfLen : ∀ (n : WTNode), wfViewB n = true → wfLenB n = true := by
  apply strongOnSize
  intro n ih h
  obtain ⟨nm, len, meta, child⟩ := n
  cases child with
  | none => exact h
  | some cs =>
    simp only [wfViewB, Bool.and_eq_true] at h
    obtain ⟨⟨hm, hl⟩, hcs⟩ := h
    simp only [wfLenB, Bool.and_eq_true]
    refine ⟨hl, ?_⟩
    rw [wfLenList_iff]
    intro c hc
    exact ih c (sizeOf_child_lt nm len meta hc) ((wfViewList_iff cs).mp hcs c hc)

theorem rowsList_len :
    ∀ (cs : List WTNode) (d : Nat),
      (∀ c ∈ cs, (rowsOf d c).length = c.len) →
      (rowsList d cs).length = sumLenWT cs := by
  intro cs d h
  induction cs with
  | nil => rfl
  | cons c cs ih =>
    simp only [rowsList, List.length_append, sumLenWT, List.map_cons, List.sum_cons]
    rw [h c (by simp), ih (fun x hx => h x (List.mem_cons_of_mem _ hx))]
    rfl

theorem rows_len : ∀ (n : WTNode), wfLenB n = true → ∀ (d : Nat), (rowsOf d n).length = n.len := by
  apply strongOnSize
  intro n ih h d
  obtain ⟨nm, len, meta, child⟩ := n
  cases child with
  | none =>
    simp only [wfLenB, beq_iff_eq] at h
    simp [rowsOf, WTNode.len, h]
  | some cs =>
    simp only [wfLenB, Bool.and_eq_true, beq_iff_eq] at h
    obtain ⟨hl, hcs⟩ := h
    simp only [rowsOf, List.length_cons, WTNode.len]
    rw [rowsList_len cs (d + 1) (fun c hc =>
      ih c (sizeOf_child_lt nm len meta hc) ((wfLenList_iff cs).mp hcs c hc) (d + 1))]
    omega

theorem nodeAtPath_len_le :
    ∀ (p : List Nat) (n f : WTNode), wfLenB n = true → nodeAtPath n p = some f →
      f.len ≤ n.len ∧ wfLenB f = true := by
  intro p
  induction p with
  | nil =>
    intro n f h hp
    simp only [nodeAtPath, Option.some.injEq] at hp
    exact ⟨hp ▸ le_refl _, hp ▸ h⟩
  | cons j p ih =>
    intro n f h hp
    obtain ⟨nm, len, meta, child⟩ := n
    cases child with
    | none => simp [nodeAtPath, WTNode.child] at hp
    | some cs =>
      simp only [nodeAtPath, WTNode.child] at hp
      cases hg : cs[j]? with
      | none => rw [hg] at hp; exact Option.noConfusion hp
      | some c =>
        rw [hg] at hp
        simp only [wfLenB, Bool.and_eq_true, beq_iff_eq] at h
        obtain ⟨hl, hcs⟩ := h
        have hcwf : wfLenB c = true := (wfLenList_iff cs).mp hcs c (getElem?_mem cs j c hg)
        obtain ⟨h1, h2⟩ := ih c f hcwf hp
        have hcle : c.len ≤ sumLenWT cs := elem_le_sum WTNode.len cs j c hg
        have hfl : WTNode.len (WTNode.mk nm len meta (some cs)) = len := rfl
        exact ⟨by omega, h2⟩

end Jedit

namespace Jedit

theorem scanWT_eq {σ : Type} (onF : WTNode → σ → WTNode × σ)
    (aft : WTNode → Option Nat → σ → Option (WTNode × σ)) :
    ∀ (cs : List WTNode),
      (∀ c ∈ cs, ∀ (i : Nat) (s : σ),
        traverseWT onF aft c i s
          = match rowPath c i with
            | none => none
            | some p => applyAtPath onF aft c p s) →
      ∀ (i : Nat) (s : σ),
        scanWT onF aft cs i s
          = match rowScan cs i with
            | none => none
            | some jp =>
              match cs[jp.1]? with
              | none => none
              | some c =>
                match applyAtPath onF aft c jp.2 s with
                | none => none
                | some r => some (cs.set jp.1 r.1, jp.1, r.2) := by
  intro cs
  induction cs with
  | nil => intro _ i s; rfl
  | cons c cs ih =>
    intro hmem i s
    simp only [scanWT, rowScan]
    by_cases hlt : i < c.len
    · rw [if_pos hlt, if_pos hlt, hmem c (by simp)]
      cases rowPath c i with
      | none => rfl
      | some p =>
        simp only [List.getElem?_cons_zero, List.set_cons_zero]
        cases applyAtPath onF aft c p s with
        | none => rfl
        | some r => rfl
    · rw [if_neg hlt, if_neg hlt,
        ih (fun x hx => hmem x (List.mem_cons_of_mem _ hx)) (i - c.len) s]
      cases rowScan cs (i - c.len) with
      | none => rfl
      | some jp =>
        simp only [List.getElem?_cons_succ, List.set_cons_succ]
        cases cs[jp.1]? with
        | none => rfl
        | some c2 =>
          simp only
          cases applyAtPath onF aft c2 jp.2 s with
          | none => rfl
          | some r => rfl

theorem traverseWT_eq {σ : Type} (onF : WTNode → σ → WTNode × σ)
    (aft : WTNode → Option Nat → σ → Option (WTNode × σ)) :
    ∀ (n : WTNode) (i : Nat) (s : σ),
      traverseWT onF aft n i s
        = match rowPath n i with
          | none => none
          | some p => applyAtPath onF aft n p s := by
  apply strongOnSize
  intro n ih i s
  cases i with
  | zero =>
    obtain ⟨nm, len, meta, child⟩ := n
    cases child <;> rfl
  | succ i2 =>
    obtain ⟨nm, len, meta, child⟩ := n
    cases child with
    | none =>
      simp only [traverseWT, rowPath]
      rw [if_neg (Nat.succ_ne_zero i2)]
      by_cases hle : (WTNode.mk nm len meta none).len ≤ i2 + 1
      · rw [if_pos hle, if_pos hle]
      · rw [if_neg hle, if_neg hle]
    | some cs =>
      simp only [traverseWT, rowPath]
      rw [if_neg (Nat.succ_ne_zero i2)]
      by_cases hle : (WTNode.mk nm len meta (some cs)).len ≤ i2 + 1
      · rw [if_pos hle, if_pos hle]
      · rw [if_neg hle, if_neg hle]
        simp only [Nat.add_sub_cancel]
        rw [scanWT_eq onF aft cs
          (fun c hc => ih c (sizeOf_child_lt nm len meta hc)) i2 s]
        cases rowScan cs i2 with
        | none => rfl
        | some jp =>
          simp only [applyAtPath]
          cases cs[jp.1]? with
          | none => rfl
          | some c =>
            simp only
            cases applyAtPath onF aft c jp.2 s with
            | none => rfl
            | some r => rfl

end Jedit

namespace Jedit

theorem set_getElem?_self {α : Type} :
    ∀ (xs : List α) (i : Nat) (a : α), i < xs.length → (xs.set i a)[i]? = some a := by
  intro xs
  induction xs with
  | nil => intro i a h; simp at h
  | cons x xs ih =>
    intro i a h
    match i with
    | 0 => simp
    | i + 1 =>
      simp only [List.set_cons_succ, List.getElem?_cons_succ]
      exact ih i a (by simpa using h)

theorem applyPath_some_nodeAtPath {σ : Type} (onF : WTNode → σ → WTNode × σ)
    (aft : WTNode → Option Nat → σ → Option (WTNode × σ)) :
    ∀ (p : List Nat) (n : WTNode) (s : σ) (r : WTNode × σ),
      applyAtPath onF aft n p s = some r → ∃ f, nodeAtPath n p = some f := by
  intro p
  induction p with
  | nil => intro n s r _; exact ⟨n, rfl⟩
  | cons j p ih =>
    intro n s r h
    obtain ⟨nm, len, meta, child⟩ := n
    cases child with
    | none => simp [applyAtPath] at h
    | some cs =>
      simp only [applyAtPath] at h
      cases hg : cs[j]? with
      | none => rw [hg] at h; simp at h
      | some c =>
        rw [hg] at h
        simp only at h
        cases ha : applyAtPath onF aft c p s with
        | none => rw [ha] at h; simp at h
        | some rc =>
          obtain ⟨f, hf⟩ := ih c s rc ha
          exact ⟨f, by simp [nodeAtPath, WTNode.child, hg, hf]⟩

theorem setMetaPath_len :
    ∀ (p : List Nat) (n : WTNode) (m : NodeMeta), (setMetaPath n p m).len = n.len := by
  intro p
  induction p with
  | nil =>
    intro n m
    obtain ⟨nm, len, meta, child⟩ := n
    rfl
  | cons j p ih =>
    intro n m
    obtain ⟨nm, len, meta, child⟩ := n
    cases child with
    | none => rfl
    | some cs =>
      simp only [setMetaPath]
      cases cs[j]? <;> rfl

theorem wfView_setMetaPath :
    ∀ (p : List Nat) (n : WTNode) (m : NodeMeta),
      wfViewB n = true → wfViewB (setMetaPath n p m) = true := by
  intro p
  induction p with
  | nil =>
    intro n m h
    obtain ⟨nm, len, meta, child⟩ := n
    cases child with
    | none => exact h
    | some cs =>
      simp only [wfViewB, Bool.and_eq_true] at h
      simp only [setMetaPath, wfViewB, Bool.and_eq_true, Option.isSome_some, true_and]
      exact ⟨h.1.2, h.2⟩
  | cons j p ih =>
    intro n m h
    obtain ⟨nm, len, meta, child⟩ := n
    cases child with
    | none => exact h
    | some cs =>
      simp only [setMetaPath]
      cases hg : cs[j]? with
      | none => exact h
      | some c =>
        simp only [wfViewB, Bool.and_eq_true] at h ⊢
        obtain ⟨⟨hm, hl⟩, hcs⟩ := h
        have hclen : (setMetaPath c p m).len = c.len := setMetaPath_len p c m
        have hsum := sum_map_set WTNode.len cs j (setMetaPath c p m) c hg
        refine ⟨⟨hm, ?_⟩, ?_⟩
        · simp only [beq_iff_eq] at hl ⊢
          simp only [sumLenWT] at hl ⊢
          omega
        · rw [wfViewList_iff]
          intro x hx
          rcases mem_set cs j (setMetaPath c p m) x hx with h' | h'
          · exact (wfViewList_iff cs).mp hcs x h'
          · rw [h']
            exact ih c m ((wfViewList_iff cs).mp hcs c (getElem?_mem cs j c hg))

theorem reindexChildren_wf (idx : Index) :
    wfViewList (reindexChildren idx) = true ∧
    sumLenWT (reindexChildren idx) + 1 = reindexLen idx := by
  obtain ⟨meta, kind⟩ := idx
  cases kind with
  | terminal => exact ⟨rfl, rfl⟩
  | object items =>
    constructor
    · rw [wfViewList_iff]
      intro c hc
      obtain ⟨k, _, rfl⟩ := List.mem_map.mp hc
      rfl
    · show sumLenWT (items.map WTNode.new_empty) + 1 = items.length + 1
      have : ∀ (its : List String), sumLenWT (its.map WTNode.new_empty) = its.length := by
        intro its
        induction its with
        | nil => rfl
        | cons a as ih =>
          simp only [List.map_cons, sumLenWT, List.sum_cons, List.length_cons] at ih ⊢
          rw [show WTNode.len (WTNode.new_empty a) = 1 from rfl]
          omega
      rw [this]
  | array nn =>
    constructor
    · rw [wfViewList_iff]
      intro c hc
      obtain ⟨k, _, rfl⟩ := List.mem_map.mp hc
      rfl
    · show sumLenWT ((List.range nn).map fun i => WTNode.new_empty (toString i)) + 1 = nn + 1
      have : ∀ (its : List Nat), sumLenWT (its.map fun i => WTNode.new_empty (toString i))
          = its.length := by
        intro its
        induction its with
        | nil => rfl
        | cons a as ih =>
          simp only [List.map_cons, sumLenWT, List.sum_cons, List.length_cons] at ih ⊢
          rw [show WTNode.len (WTNode.new_empty (toString a)) = 1 from rfl]
          omega
      rw [this, List.length_range]

theorem wfViewB_set_name (nm : String) (c : WTNode) :
    wfViewB (.mk nm c.len c.meta c.child) = wfViewB c := by
  obtain ⟨n0, l0, m0, ch0⟩ := c
  cases ch0 <;> rfl

theorem renumberFrom_lens :
    ∀ (cs : List WTNode) (k : Nat), (renumberFrom k cs).map WTNode.len = cs.map WTNode.len := by
  intro cs
  induction cs with
  | nil => intro k; rfl
  | cons c cs ih =>
    intro k
    simp only [renumberFrom, List.map_cons]
    rw [ih (k + 1)]
    rfl

theorem renumberFrom_wf :
    ∀ (cs : List WTNode) (k : Nat), wfViewList cs = true →
      wfViewList (renumberFrom k cs) = true := by
  intro cs
  induction cs with
  | nil => intro k h; exact h
  | cons c cs ih =>
    intro k h
    simp only [wfViewList, Bool.and_eq_true] at h
    simp only [renumberFrom, wfViewList, Bool.and_eq_true]
    exact ⟨(wfViewB_set_name (toString k) c).symm ▸ h.1, ih (k + 1) h.2⟩

end Jedit

namespace Jedit

theorem applyPath_reindex_meta :
    ∀ (p : List Nat) (n f : WTNode) (idx : Index),
      nodeAtPath n p = some f → f.child = none →
      applyAtPath (reindexOnFound idx false) (reindexAfter idx) n p none
        = some (setMetaPath n p idx.meta, none) := by
  intro p
  induction p with
  | nil =>
    intro n f idx hf hc
    simp only [nodeAtPath, Option.some.injEq] at hf
    subst hf
    obtain ⟨nm, len, meta, child⟩ := n
    have hch : child = none := hc
    subst hch
    rfl
  | cons j p ih =>
    intro n f idx hf hc
    obtain ⟨nm, len, meta, child⟩ := n
    cases child with
    | none => simp [nodeAtPath, WTNode.child] at hf
    | some cs =>
      simp only [nodeAtPath, WTNode.child] at hf
      cases hg : cs[j]? with
      | none => rw [hg] at hf; exact Option.noConfusion hf
      | some c =>
        rw [hg] at hf
        simp only at hf
        simp only [applyAtPath, setMetaPath, hg]
        rw [ih c f idx hf hc]
        rfl

theorem applyPath_reindex_force :
    ∀ (p : List Nat) (n f : WTNode) (idx : Index) (force : Bool),
      wfViewB n = true → nodeAtPath n p = some f →
      (force = true ∨ ∃ cs0, f.child = some cs0) →
      ∃ n', applyAtPath (reindexOnFound idx force) (reindexAfter idx) n p none
          = some (n', some f.len) ∧
        n'.len + f.len = n.len + reindexLen idx ∧
        nodeAtPath n' p = some (.mk f.name (reindexLen idx) (some idx.meta)
          (some (reindexChildren idx))) ∧
        wfViewB n' = true := by
  intro p
  induction p with
  | nil =>
    intro n f idx force hwf hf hmat
    simp only [nodeAtPath, Option.some.injEq] at hf
    subst hf
    obtain ⟨nm, len, meta, child⟩ := n
    have hcond : (child.isSome || force) = true := by
      rcases hmat with h | ⟨cs0, h⟩
      · simp [h]
      · simp [WTNode.child] at h
        simp [h]
    obtain ⟨h1, h2⟩ := reindexChildren_wf idx
    refine ⟨.mk nm (reindexLen idx) (some idx.meta) (some (reindexChildren idx)),
      ?_, ?_, ?_, ?_⟩
    · simp only [applyAtPath, reindexOnFound, reindexAfter, hcond, if_true, WTNode.name,
        WTNode.len, WTNode.meta, WTNode.child]
      rw [show len - len + reindexLen idx = reindexLen idx from by omega]
    · show reindexLen idx + (WTNode.mk nm len meta child).len
          = (WTNode.mk nm len meta child).len + reindexLen idx
      omega
    · rfl
    · show wfViewB (.mk nm (reindexLen idx) (some idx.meta)
        (some (reindexChildren idx))) = true
      simp only [wfViewB, Bool.and_eq_true, Option.isSome_some, true_and, beq_iff_eq]
      exact ⟨by omega, h1⟩
  | cons j p ih =>
    intro n f idx force hwf hf hmat
    obtain ⟨nm, len, meta, child⟩ := n
    cases child with
    | none => simp [nodeAtPath, WTNode.child] at hf
    | some cs =>
      simp only [nodeAtPath, WTNode.child] at hf
      cases hg : cs[j]? with
      | none => rw [hg] at hf; exact Option.noConfusion hf
      | some c =>
        rw [hg] at hf
        simp only at hf
        simp only [wfViewB, Bool.and_eq_true, beq_iff_eq] at hwf
        obtain ⟨⟨hm, hlen⟩, hcs⟩ := hwf
        have hcwf : wfViewB c = true := (wfViewList_iff cs).mp hcs c (getElem?_mem cs j c hg)
        obtain ⟨c', hc1, hc2, hc3, hc4⟩ := ih c f idx force hcwf hf hmat
        have hfle : f.len ≤ c.len :=
          (nodeAtPath_len_le p c f (wfView_imp_wfLen c hcwf) hf).1
        have hcle : c.len ≤ sumLenWT cs := elem_le_sum WTNode.len cs j c hg
        refine ⟨.mk nm (len - f.len + reindexLen idx) meta (some (cs.set j c')),
          ?_, ?_, ?_, ?_⟩
        · simp only [applyAtPath, hg, hc1]
          rfl
        · have hsum := sum_map_set WTNode.len cs j c' c hg
          show WTNode.len (.mk nm (len - f.len + reindexLen idx) meta (some (cs.set j c')))
              + f.len = WTNode.len (.mk nm len meta (some cs)) + reindexLen idx
          show len - f.len + reindexLen idx + f.len = len + reindexLen idx
          omega
        · show nodeAtPath (.mk nm (len - f.len + reindexLen idx) meta (some (cs.set j c')))
            (j :: p) = _
          simp only [nodeAtPath, WTNode.child,
            set_getElem?_self cs j c' (lt_of_getElem? cs j c hg)]
          exact hc3
        · have hsum := sum_map_set WTNode.len cs j c' c hg
          simp only [wfViewB, Bool.and_eq_true, beq_iff_eq]
          refine ⟨⟨hm, ?_⟩, ?_⟩
          · simp only [sumLenWT] at hlen hsum hcle ⊢
            omega
          · rw [wfViewList_iff]
            intro x hx
            rcases mem_set cs j c' x hx with h' | h'
            · exact (wfViewList_iff cs).mp hcs x h'
            · exact h' ▸ hc4

end Jedit

namespace Jedit

theorem applyPath_close :
    ∀ (p : List Nat) (n f : WTNode),
      wfViewB n = true → nodeAtPath n p = some f →
      ∃ n', applyAtPath closeOnFound closeAfter n p 1 = some (n', f.len - 1) ∧
        n'.len + (f.len - 1) = n.len ∧ wfViewB n' = true := by
  intro p
  induction p with
  | nil =>
    intro n f hwf hf
    simp only [nodeAtPath, Option.some.injEq] at hf
    subst hf
    obtain ⟨nm, len, meta, child⟩ := n
    have hlen1 : 1 ≤ len := by
      cases child with
      | none => simp only [wfViewB, beq_iff_eq] at hwf; omega
      | some cs =>
        simp only [wfViewB, Bool.and_eq_true, beq_iff_eq] at hwf
        omega
    refine ⟨.mk nm (len - (len - 1)) meta none, rfl, ?_, ?_⟩
    · show len - (len - 1) + ((WTNode.mk nm len meta child).len - 1)
          = (WTNode.mk nm len meta child).len
      show len - (len - 1) + (len - 1) = len
      omega
    · simp only [wfViewB, beq_iff_eq]
      omega
  | cons j p ih =>
    intro n f hwf hf
    obtain ⟨nm, len, meta, child⟩ := n
    cases child with
    | none => simp [nodeAtPath, WTNode.child] at hf
    | some cs =>
      simp only [nodeAtPath, WTNode.child] at hf
      cases hg : cs[j]? with
      | none => rw [hg] at hf; exact Option.noConfusion hf
      | some c =>
        rw [hg] at hf
        simp only at hf
        simp only [wfViewB, Bool.and_eq_true, beq_iff_eq] at hwf
        obtain ⟨⟨hm, hlen⟩, hcs⟩ := hwf
        have hcwf : wfViewB c = true := (wfViewList_iff cs).mp hcs c (getElem?_mem cs j c hg)
        obtain ⟨c', hc1, hc2, hc3⟩ := ih c f hcwf hf
        have hfle : f.len ≤ c.len :=
          (nodeAtPath_len_le p c f (wfView_imp_wfLen c hcwf) hf).1
        have hcle : c.len ≤ sumLenWT cs := elem_le_sum WTNode.len cs j c hg
        have hsum := sum_map_set WTNode.len cs j c' c hg
        refine ⟨.mk nm (len - (f.len - 1)) meta (some (cs.set j c')), ?_, ?_, ?_⟩
        · simp only [applyAtPath, hg, hc1]
          rfl
        · show len - (f.len - 1) + (f.len - 1) = WTNode.len (.mk nm len meta (some cs))
          show len - (f.len - 1) + (f.len - 1) = len
          omega
        · simp only [wfViewB, Bool.and_eq_true, beq_iff_eq]
          refine ⟨⟨hm, ?_⟩, ?_⟩
          · simp only [sumLenWT] at hlen hsum hcle ⊢
            omega
          · rw [wfViewList_iff]
            intro x hx
            rcases mem_set cs j c' x hx with h' | h'
            · exact (wfViewList_iff cs).mp hcs x h'
            · exact h' ▸ hc3

theorem applyPath_rename :
    ∀ (p : List Nat) (n f : WTNode) (new_key : String) (s0 : Nat),
      nodeAtPath n p = some f →
      ∃ n' s', applyAtPath (renameOnFound new_key) (renameAfter new_key) n p s0
          = some (n', s') ∧
        n'.len = n.len ∧ (wfViewB n = true → wfViewB n' = true) := by
  intro p
  induction p with
  | nil =>
    intro n f new_key s0 hf
    obtain ⟨nm, len, meta, child⟩ := n
    refine ⟨_, _, rfl, rfl, ?_⟩
    intro hwf
    simp only [renameOnFound, WTNode.name, WTNode.len, WTNode.meta, WTNode.child]
    cases child with
    | none => exact hwf
    | some cs =>
      simp only [wfViewB, Bool.and_eq_true, Option.isSome_map'] at hwf ⊢
      exact hwf
  | cons j p ih =>
    intro n f new_key s0 hf
    obtain ⟨nm, len, meta, child⟩ := n
    cases child with
    | none => simp [nodeAtPath, WTNode.child] at hf
    | some cs =>
      simp only [nodeAtPath, WTNode.child] at hf
      cases hg : cs[j]? with
      | none => rw [hg] at hf; exact Option.noConfusion hf
      | some c =>
        rw [hg] at hf
        simp only at hf
        obtain ⟨c', s', hc1, hc2, hc3⟩ := ih c f new_key s0 hf
        have hsum := sum_map_set WTNode.len cs j c' c hg
        refine ⟨.mk nm len
          (meta.map fun m =>
            NodeMeta.mk m.n_lines (m.n_bytes - s' + strBytes new_key) m.kind)
          (some (cs.set j c')), s', ?_, rfl, ?_⟩
        · simp only [applyAtPath, hg, hc1]
          rfl
        · intro hwf
          simp only [wfViewB, Bool.and_eq_true, beq_iff_eq, Option.isSome_map'] at hwf ⊢
          obtain ⟨⟨hm, hlen⟩, hcs⟩ := hwf
          refine ⟨⟨hm, ?_⟩, ?_⟩
          · simp only [sumLenWT] at hlen hsum ⊢
            omega
          · rw [wfViewList_iff]
            intro x hx
            rcases mem_set cs j c' x hx with h' | h'
            · exact (wfViewList_iff cs).mp hcs x h'
            · exact h' ▸ hc3 ((wfViewList_iff cs).mp hcs c (getElem?_mem cs j c hg))

theorem applyPath_delete :
    ∀ (p : List Nat) (n f : WTNode) (metas : List NodeMeta)
      (r : WTNode × (Bool × List NodeMeta)),
      wfViewB n = true → nodeAtPath n p = some f → f.len = 1 →
      applyAtPath (fun n s => (n, s)) deleteAfter n p (true, metas) = some r →
      (p = [] → r = (n, (true, metas))) ∧
      (p ≠ [] → wfViewB r.1 = true ∧ r.1.len + 1 = n.len ∧ r.2.1 = false) := by
  intro p
  induction p with
  | nil =>
    intro n f metas r hwf hf hflen happ
    refine ⟨fun _ => ?_, fun hne => absurd rfl hne⟩
    obtain ⟨nm, len, meta, child⟩ := n
    cases child with
    | none =>
      have hred : applyAtPath (fun n s => (n, s)) deleteAfter
          (WTNode.mk nm len meta none) [] (true, metas)
          = some (WTNode.mk nm len meta none, (true, metas)) := rfl
      rw [hred, Option.some.injEq] at happ
      exact happ.symm
    | some cs =>
      have hred : applyAtPath (fun n s => (n, s)) deleteAfter
          (WTNode.mk nm len meta (some cs)) [] (true, metas)
          = some (WTNode.mk nm len meta (some cs), (true, metas)) := rfl
      rw [hred, Option.some.injEq] at happ
      exact happ.symm
  | cons j p ih =>
    intro n f metas r hwf hf hflen happ
    obtain ⟨nm, len, meta, child⟩ := n
    cases child with
    | none => simp [nodeAtPath, WTNode.child] at hf
    | some cs =>
      simp only [nodeAtPath, WTNode.child] at hf
      cases hg : cs[j]? with
      | none => rw [hg] at hf; exact Option.noConfusion hf
      | some c =>
        rw [hg] at hf
        simp only at hf
        simp only [wfViewB, Bool.and_eq_true, beq_iff_eq] at hwf
        obtain ⟨⟨hm, hlen⟩, hcs⟩ := hwf
        have hcwf : wfViewB c = true := (wfViewList_iff cs).mp hcs c (getElem?_mem cs j c hg)
        simp only [applyAtPath, hg] at happ
        cases hrec : applyAtPath (fun n s => (n, s)) deleteAfter c p (true, metas) with
        | none => rw [hrec] at happ; exact Option.noConfusion happ
        | some cr =>
          rw [hrec] at happ
          obtain ⟨c', s'⟩ := cr
          simp only at happ
          have hih := ih c f metas (c', s') hcwf hf hflen hrec
          refine ⟨fun hc => List.noConfusion hc, fun _ => ?_⟩
          by_cases hp : p = []
          · injection hih.1 hp with h1 h2
            subst h2
            rw [h1] at happ
            subst hp
            simp only [nodeAtPath, Option.some.injEq] at hf
            subst hf
            cases meta with
            | none => simp at hm
            | some m =>
              rw [set_getElem_self cs j c hg] at happ
              have hda : deleteAfter (WTNode.mk nm len (some m) (some cs)) (some j)
                  (true, metas)
                  = match metas.getLast? with
                    | none => none
                    | some popped => some (.mk nm (len - 1) (some popped)
                        (some (if m.kind = .array then renumberFrom 0 (removeAt cs j)
                          else removeAt cs j)),
                        (false, metas.dropLast)) := rfl
              rw [hda] at happ
              cases hml : metas.getLast? with
              | none => rw [hml] at happ; exact Option.noConfusion happ
              | some popped =>
                rw [hml, Option.some.injEq] at happ
                subst happ
                have hsumr := sum_map_removeAt WTNode.len cs j c hg
                have hsum2 : sumLenWT (if m.kind = NodeKind.array
                      then renumberFrom 0 (removeAt cs j) else removeAt cs j)
                    = sumLenWT (removeAt cs j) := by
                  by_cases hk : m.kind = NodeKind.array
                  · rw [if_pos hk]
                    simp only [sumLenWT]
                    rw [renumberFrom_lens]
                  · rw [if_neg hk]
                have hrm : wfViewList (removeAt cs j) = true := by
                  rw [wfViewList_iff]
                  intro x hx
                  exact (wfViewList_iff cs).mp hcs x (mem_removeAt cs j x hx)
                have hwfl2 : wfViewList (if m.kind = NodeKind.array
                      then renumberFrom 0 (removeAt cs j) else removeAt cs j) = true := by
                  by_cases hk : m.kind = NodeKind.array
                  · rw [if_pos hk]
                    exact renumberFrom_wf (removeAt cs j) 0 hrm
                  · rw [if_neg hk]
                    exact hrm
                refine ⟨?_, ?_, rfl⟩
                · simp only [wfViewB, Bool.and_eq_true, beq_iff_eq]
                  refine ⟨⟨rfl, ?_⟩, hwfl2⟩
                  rw [hsum2]
                  simp only [sumLenWT] at hlen hsumr ⊢
                  omega
                · show len - 1 + 1 = len
                  simp only [sumLenWT] at hlen hsumr
                  omega
          · obtain ⟨hwfc', hlenc', hs1⟩ := hih.2 hp
            obtain ⟨b, ms⟩ := s'
            dsimp only at hwfc' hlenc' hs1
            subst hs1
            have hdb : deleteAfter (WTNode.mk nm len meta (some (cs.set j c'))) (some j)
                (false, ms)
                = match ms.getLast? with
                  | none => none
                  | some popped => some (.mk nm (len - 1) (some popped)
                      (some (cs.set j c')), (false, ms.dropLast)) := rfl
            rw [hdb] at happ
            cases hml : ms.getLast? with
            | none => rw [hml] at happ; exact Option.noConfusion happ
            | some popped =>
              rw [hml, Option.some.injEq] at happ
              subst happ
              have hsum := sum_map_set WTNode.len cs j c' c hg
              have hcle : c.len ≤ sumLenWT cs := elem_le_sum WTNode.len cs j c hg
              refine ⟨?_, ?_, rfl⟩
              · simp only [wfViewB, Bool.and_eq_true, beq_iff_eq]
                refine ⟨⟨rfl, ?_⟩, ?_⟩
                · simp only [sumLenWT] at hlen hsum hcle ⊢
                  omega
                · rw [wfViewList_iff]
                  intro x hx
                  rcases mem_set cs j c' x hx with h' | h'
                  · exact (wfViewList_iff cs).mp hcs x h'
                  · exact h' ▸ hwfc'
              · show len - 1 + 1 = len
                simp only [sumLenWT] at hlen hcle
                omega

/-- The View Trees reachable from a fresh single-row root by `reindex`,
`close`, `rename` and `delete`, with every `delete` targeting a row whose
node occupies a single flat row (`len = 1`, i.e. the row is not
expanded) — the amended hypothesis under which the flat-row invariant is
maintained. -/
inductive ReachView : WTNode → Prop where
  | root (name : String) (meta : Option NodeMeta) : ReachView (WTNode.new name meta)
  | reindex_step (t t' : WTNode) (i : Nat) (idx : Index) (force : Bool) :
      ReachView t → WTNode.reindex t i idx force = some t' → ReachView t'
  | close_step (t t' : WTNode) (i : Nat) :
      ReachView t → WTNode.close t i = some t' → ReachView t'
  | rename_step (t t' : WTNode) (i : Nat) (k : String) :
      ReachView t → WTNode.rename t i k = some t' → ReachView t'
  | delete_step (t t' : WTNode) (i : Nat) (pm : List NodeMeta) (p : List Nat)
      (f : WTNode) :
      ReachView t → rowPath t i = some p → nodeAtPath t p = some f → f.len = 1 →
      WTNode.delete t i pm = some t' → ReachView t'

theorem reach_wfView : ∀ (t : WTNode), ReachView t → wfViewB t = true := by
  intro t h
  induction h with
  | root name meta => rfl
  | reindex_step t t' i idx force _ hop ih =>
    simp only [WTNode.reindex] at hop
    rw [traverseWT_eq] at hop
    cases hp : rowPath t i with
    | none => rw [hp] at hop; exact Option.noConfusion hop
    | some p =>
      rw [hp] at hop
      simp only at hop
      cases ha : applyAtPath (reindexOnFound idx force) (reindexAfter idx) t p none with
      | none => rw [ha] at hop; exact Option.noConfusion hop
      | some fs =>
        rw [ha] at hop
        simp only [Option.some.injEq] at hop
        subst hop
        obtain ⟨f, hf⟩ := applyPath_some_nodeAtPath _ _ p t none fs ha
        cases hfc : f.child with
        | none =>
          cases force with
          | false =>
            rw [applyPath_reindex_meta p t f idx hf hfc, Option.some.injEq] at ha
            rw [← ha]
            exact wfView_setMetaPath p t idx.meta ih
          | true =>
            obtain ⟨n', h1, _, _, h4⟩ :=
              applyPath_reindex_force p t f idx true ih hf (Or.inl rfl)
            rw [h1, Option.some.injEq] at ha
            rw [← ha]
            exact h4
        | some cs0 =>
          obtain ⟨n', h1, _, _, h4⟩ :=
            applyPath_reindex_force p t f idx force ih hf (Or.inr ⟨cs0, hfc⟩)
          rw [h1, Option.some.injEq] at ha
          rw [← ha]
          exact h4
  | close_step t t' i _ hop ih =>
    simp only [WTNode.close] at hop
    rw [traverseWT_eq] at hop
    cases hp : rowPath t i with
    | none => rw [hp] at hop; exact Option.noConfusion hop
    | some p =>
      rw [hp] at hop
      simp only at hop
      cases ha : applyAtPath closeOnFound closeAfter t p 1 with
      | none => rw [ha] at hop; exact Option.noConfusion hop
      | some fs =>
        rw [ha] at hop
        simp only [Option.some.injEq] at hop
        subst hop
        obtain ⟨f, hf⟩ := applyPath_some_nodeAtPath _ _ p t 1 fs ha
        obtain ⟨n', h1, _, h3⟩ := applyPath_close p t f ih hf
        rw [h1, Option.some.injEq] at ha
        rw [← ha]
        exact h3
  | rename_step t t' i k _ hop ih =>
    simp only [WTNode.rename] at hop
    rw [traverseWT_eq] at hop
    cases hp : rowPath t i with
    | none => rw [hp] at hop; exact Option.noConfusion hop
    | some p =>
      rw [hp] at hop
      simp only at hop
      cases ha : applyAtPath (renameOnFound k) (renameAfter k) t p 0 with
      | none => rw [ha] at hop; exact Option.noConfusion hop
      | some fs =>
        rw [ha] at hop
        simp only [Option.some.injEq] at hop
        subst hop
        obtain ⟨f, hf⟩ := applyPath_some_nodeAtPath _ _ p t 0 fs ha
        obtain ⟨n', s', h1, _, h3⟩ := applyPath_rename p t f k 0 hf
        rw [h1, Option.some.injEq] at ha
        rw [← ha]
        exact h3 ih
  | delete_step t t' i pm p f _ hp hf hflen hop ih =>
    simp only [WTNode.delete] at hop
    rw [traverseWT_eq] at hop
    rw [hp] at hop
    simp only at hop
    cases ha : applyAtPath (fun n s => (n, s)) deleteAfter t p (true, pm) with
    | none => rw [ha] at hop; exact Option.noConfusion hop
    | some r =>
      rw [ha] at hop
      simp only [Option.some.injEq] at hop
      subst hop
      have hd := applyPath_delete p t f pm r ih hf hflen ha
      by_cases hpe : p = []
      · rw [hd.1 hpe]
        exact ih
      · exact (hd.2 hpe).1

/-- C7 counterexample: the flat-row invariant is NOT maintained under
arbitrary operation sequences.  Expanding both root children of a fresh
root (reindex row 0 with two object keys, then reindex row 1 with two
object keys, both forced) and then deleting row 1 — a row whose node is
expanded and occupies 3 flat rows — removes that whole subtree from the
child list but decrements the ancestor `len` by only 1, leaving
`len = 4` while `as_tree_string` yields only 2 rows. -/
theorem c7_counterexample :
    ∃ t3 : WTNode,
      ((WTNode.reindex (WTNode.new "root" none) 0
          ⟨NodeMeta.mk 1 2 .object, .object ["a", "b"]⟩ true).bind fun t1 =>
        (WTNode.reindex t1 1 ⟨NodeMeta.mk 1 2 .object, .object ["x", "y"]⟩ true).bind
          fun t2 => WTNode.delete t2 1 [NodeMeta.mk 1 2 .object]) = some t3 ∧
      t3.len = 4 ∧ (WTNode.as_tree_string t3).length = 2 :=
  ⟨_, rfl, rfl, rfl⟩

/-- C7 (amended): for every View Tree reachable from a fresh single-row
root by reindex, close, rename and delete operations in which every
delete targets a row whose node occupies a single flat row (is not
expanded), every node's `len` is 1 when its children are not materialized
and 1 plus the sum of its children's `len` when they are, and `len`
equals the number of strings yielded by `as_tree_string`. -/
theorem c7_view_len_amended :
    ∀ (t : WTNode), ReachView t →
      wfLenB t = true ∧ (WTNode.as_tree_string t).length = t.len := by
  intro t h
  have hv := reach_wfView t h
  have hl := wfView_imp_wfLen t hv
  exact ⟨hl, rows_len t hl 0⟩

theorem c7_view_len_amended_witness :
    wfLenB (WTNode.mk "root" 3 (some (NodeMeta.mk 1 2 NodeKind.object))
        (some [WTNode.new_empty "a", WTNode.new_empty "b"])) = true ∧
      (WTNode.as_tree_string (WTNode.mk "root" 3 (some (NodeMeta.mk 1 2 NodeKind.object))
          (some [WTNode.new_empty "a", WTNode.new_empty "b"]))).length
        = (WTNode.mk "root" 3 (some (NodeMeta.mk 1 2 NodeKind.object))
            (some [WTNode.new_empty "a", WTNode.new_empty "b"])).len :=
  c7_view_len_amended _
    (ReachView.reindex_step (WTNode.new "root" none) _ 0
      ⟨NodeMeta.mk 1 2 .object, .object ["a", "b"]⟩ true
      (ReachView.root "root" none) rfl)

/-- C8: deleting array element `k` (0 ≤ k ≤ 3) from a four-element array
in the Document Tree yields an array of length 3, and the View Tree
delete on an array-kind parent renames the remaining materialized
children to "0", "1", "2" in their original relative order. -/
theorem c8_delete_renumbers :
    ∀ (a b c d : Node) (l bb : Nat) (nm n0 n1 n2 n3 : String)
      (m0 m1 m2 m3 : Option NodeMeta) (pl pb : Nat) (k : Nat), k ≤ 3 →
      (∃ old l2 b2,
        Node.delete (.mk l bb (.arr [a, b, c, d])) [toString k]
          = .ok old (.mk l2 b2 (.arr (removeAt [a, b, c, d] k))) ∧
        (removeAt [a, b, c, d] k).length = 3) ∧
      WTNode.delete (.mk nm 5 (some (NodeMeta.mk pl pb NodeKind.array))
          (some [.mk n0 1 m0 none, .mk n1 1 m1 none, .mk n2 1 m2 none,
            .mk n3 1 m3 none]))
          (k + 1) [NodeMeta.mk pl pb NodeKind.array]
        = some (.mk nm 4 (some (NodeMeta.mk pl pb NodeKind.array))
            (some (List.zipWith (fun s c => WTNode.mk s c.len c.meta c.child)
              ["0", "1", "2"]
              (removeAt [WTNode.mk n0 1 m0 none, .mk n1 1 m1 none, .mk n2 1 m2 none,
                .mk n3 1 m3 none] k)))) := by
  intro a b c d l bb nm n0 n1 n2 n3 m0 m1 m2 m3 pl pb k hk
  rcases k with _ | _ | _ | _ | k
  · exact ⟨⟨some a, l - a.n_lines, bb - (a.indented_n_bytes + 2), rfl, rfl⟩, rfl⟩
  · exact ⟨⟨some b, l - b.n_lines, bb - (b.indented_n_bytes + 2), rfl, rfl⟩, rfl⟩
  · exact ⟨⟨some c, l - c.n_lines, bb - (c.indented_n_bytes + 2), rfl, rfl⟩, rfl⟩
  · exact ⟨⟨some d, l - d.n_lines, bb - (d.indented_n_bytes + 2), rfl, rfl⟩, rfl⟩
  · exact absurd hk (by omega)

theorem c8_delete_renumbers_witness :
    (1 : Nat) ≤ 3 ∧
    ((∃ old l2 b2,
        Node.delete (.mk 0 0 (.arr [Node.null, Node.null, Node.null, Node.null]))
            [toString 1]
          = .ok old (.mk l2 b2
              (.arr (removeAt [Node.null, Node.null, Node.null, Node.null] 1))) ∧
        (removeAt [Node.null, Node.null, Node.null, Node.null] 1).length = 3) ∧
      WTNode.delete (.mk "r" 5 (some (NodeMeta.mk 1 1 NodeKind.array))
          (some [.mk "0" 1 none none, .mk "1" 1 none none, .mk "2" 1 none none,
            .mk "3" 1 none none]))
          (1 + 1) [NodeMeta.mk 1 1 NodeKind.array]
        = some (.mk "r" 4 (some (NodeMeta.mk 1 1 NodeKind.array))
            (some (List.zipWith (fun s c => WTNode.mk s c.len c.meta c.child)
              ["0", "1", "2"]
              (removeAt [WTNode.mk "0" 1 none none, .mk "1" 1 none none,
                .mk "2" 1 none none, .mk "3" 1 none none] 1))))) :=
  ⟨by decide, c8_delete_renumbers Node.null Node.null Node.null Node.null 0 0
    "r" "0" "1" "2" "3" none none none none 1 1 1 (by decide)⟩

/-- C9: on a well-formed View Tree, `reindex` with `force = false` at a
row whose node has no materialized children only replaces that node's
cached `meta` (the tree becomes `setMetaPath t p idx.meta`, whose every
`len` — in particular the root's — is unchanged); with `force = true` or
at an already-materialized node the child list is replaced by the freshly
computed one and the resulting `len` delta propagates to every ancestor
on the path. -/
theorem c9_reindex_frame :
    ∀ (t f : WTNode) (i : Nat) (idx : Index) (p : List Nat),
      wfViewB t = true → rowPath t i = some p → nodeAtPath t p = some f →
      (f.child = none →
        WTNode.reindex t i idx false = some (setMetaPath t p idx.meta) ∧
        (setMetaPath t p idx.meta).len = t.len) ∧
      (∀ force : Bool, (force = true ∨ ∃ cs0, f.child = some cs0) →
        ∃ t', WTNode.reindex t i idx force = some t' ∧
          nodeAtPath t' p = some (.mk f.name (reindexLen idx) (some idx.meta)
            (some (reindexChildren idx))) ∧
          t'.len + f.len = t.len + reindexLen idx ∧
          wfViewB t' = true) := by
  intro t f i idx p hwf hp hf
  constructor
  · intro hfc
    refine ⟨?_, setMetaPath_len p t idx.meta⟩
    simp only [WTNode.reindex, traverseWT_eq, hp]
    rw [applyPath_reindex_meta p t f idx hf hfc]
  · intro force hmat
    obtain ⟨n', h1, h2, h3, h4⟩ := applyPath_reindex_force p t f idx force hwf hf hmat
    refine ⟨n', ?_, h3, h2, h4⟩
    simp only [WTNode.reindex, traverseWT_eq, hp]
    rw [h1]

theorem c9_reindex_frame_witness :
    ((WTNode.new_empty "a").child = none →
      WTNode.reindex (WTNode.mk "root" 3 (some (NodeMeta.mk 1 2 NodeKind.object))
          (some [WTNode.new_empty "a", WTNode.new_empty "b"])) 1
          ⟨NodeMeta.mk 1 1 NodeKind.terminal, IndexKind.terminal⟩ false
        = some (setMetaPath (WTNode.mk "root" 3 (some (NodeMeta.mk 1 2 NodeKind.object))
            (some [WTNode.new_empty "a", WTNode.new_empty "b"])) [0]
            (NodeMeta.mk 1 1 NodeKind.terminal)) ∧
        (setMetaPath (WTNode.mk "root" 3 (some (NodeMeta.mk 1 2 NodeKind.object))
            (some [WTNode.new_empty "a", WTNode.new_empty "b"])) [0]
            (NodeMeta.mk 1 1 NodeKind.terminal)).len
          = (WTNode.mk "root" 3 (some (NodeMeta.mk 1 2 NodeKind.object))
              (some [WTNode.new_empty "a", WTNode.new_empty "b"])).len) ∧
    (∀ force : Bool,
      (force = true ∨ ∃ cs0, (WTNode.new_empty "a").child = some cs0) →
      ∃ t', WTNode.reindex (WTNode.mk "root" 3 (some (NodeMeta.mk 1 2 NodeKind.object))
            (some [WTNode.new_empty "a", WTNode.new_empty "b"])) 1
            ⟨NodeMeta.mk 1 1 NodeKind.terminal, IndexKind.terminal⟩ force = some t' ∧
        nodeAtPath t' [0] = some (.mk (WTNode.new_empty "a").name
          (reindexLen ⟨NodeMeta.mk 1 1 NodeKind.terminal, IndexKind.terminal⟩)
          (some (NodeMeta.mk 1 1 NodeKind.terminal))
          (some (reindexChildren ⟨NodeMeta.mk 1 1 NodeKind.terminal,
            IndexKind.terminal⟩))) ∧
        t'.len + (WTNode.new_empty "a").len
          = (WTNode.mk "root" 3 (some (NodeMeta.mk 1 2 NodeKind.object))
              (some [WTNode.new_empty "a", WTNode.new_empty "b"])).len
            + reindexLen ⟨NodeMeta.mk 1 1 NodeKind.terminal, IndexKind.terminal⟩ ∧
        wfViewB t' = true) :=
  c9_reindex_frame (WTNode.mk "root" 3 (some (NodeMeta.mk 1 2 NodeKind.object))
      (some [WTNode.new_empty "a", WTNode.new_empty "b"]))
    (WTNode.new_empty "a") 1 ⟨NodeMeta.mk 1 1 NodeKind.terminal, IndexKind.terminal⟩
    [0] (by decide) rfl rfl

/-- C10: the View Tree delete at row index 0 (the root row) is a no-op
for every tree and every `parent_metas` argument: the traversal enters
the `index = 0` branch, `delete`'s `on_found_hook` does nothing, and the
`after_visit_hook` is called with no child index, so no child is removed,
no `len` is decremented and no `meta` is replaced. -/
theorem c10_delete_root_noop :
    ∀ (t : WTNode) (parent_metas : List NodeMeta),
      WTNode.delete t 0 parent_metas = some t := by
  intro t pm
  obtain ⟨nm, len, meta, child⟩ := t
  cases child <;> rfl

end Jedit
